import Mathlib

/-!
# Verification of the federated JSON document store (py-ldap-server)

Shallow embedding of `src/ldap_server/storage/json.py`: the entry
loader/validator, the merge engine, the lazy index and references, the
bounded LRU cache, the storage-level load/reload pipeline, pagination,
and statistics.  Python dicts are modelled as association lists that
keep insertion order (as `dict` does); machine integers do not occur
(all counters are unbounded Python ints, modelled as `Nat`); Python
exceptions are modelled with `Except`/`Option`.
-/

namespace LdapJson

mutual
/-- Structural model of a value returned by Python `json.load`:
strings, numbers, booleans, null, arrays and objects.  JSON numbers
are modelled as integers (no claim depends on float payloads); object
fields are kept in document order, as `json.load` produces `dict`s.
Arrays and objects use the mutually defined spine types `JL`/`JF` so
that decidable equality (Python `==` on parsed values) is derivable. -/
inductive JsonVal where
  | str (s : String)
  | num (n : Int)
  | boolean (b : Bool)
  | null
  | arr (xs : JL)
  | obj (fields : JF)

/-- Spine of a JSON array. -/
inductive JL where
  | nil
  | cons (hd : JsonVal) (tl : JL)

/-- Spine of a JSON object: ordered key/value fields. -/
inductive JF where
  | nil
  | cons (key : String) (val : JsonVal) (tl : JF)
end

deriving instance DecidableEq for JsonVal
deriving instance Repr for JsonVal

/-- The elements of a JSON array as a Lean list. -/
def JL.toList : JL → List JsonVal
  | .nil => []
  | .cons x tl => x :: tl.toList

/-- Build a JSON array spine from a Lean list. -/
def JL.ofList : List JsonVal → JL
  | [] => .nil
  | x :: tl => .cons x (JL.ofList tl)

/-- The fields of a JSON object as a Lean association list. -/
def JF.toList : JF → List (String × JsonVal)
  | .nil => []
  | .cons k v tl => (k, v) :: tl.toList

/-- Build a JSON object spine from a Lean association list. -/
def JF.ofList : List (String × JsonVal) → JF
  | [] => .nil
  | (k, v) :: tl => .cons k v (JF.ofList tl)

/-- Python dict lookup `fields[k]` (keys of a `json.load` dict are
unique, so first match suffices). -/
def JF.lookup : JF → String → Option JsonVal
  | .nil, _ => none
  | .cons k v tl, key => if k = key then some v else tl.lookup key

/-- Array constructor from a Lean list. -/
def jarr (xs : List JsonVal) : JsonVal := .arr (JL.ofList xs)

/-- Object constructor from a Lean association list. -/
def jobj (fields : List (String × JsonVal)) : JsonVal := .obj (JF.ofList fields)

/-- Field lookup on a JSON object (`e["k"]` / `"k" in e`); `none` for a
missing field or for a non-object.  (Python `in` on exotic non-dict
values such as strings is a containment test; those values never reach
the loaders modelled here because every handled entry comes from a
validated or indexed JSON object.) -/
def JsonVal.lookupField : JsonVal → String → Option JsonVal
  | .obj fields, k => fields.lookup k
  | _, _ => none

/-- Python truthiness test used by `if not entry_data` in
`LazyEntryReference._load_from_file`. -/
def JsonVal.falsy : JsonVal → Bool
  | .str s => s.isEmpty
  | .num n => n == 0
  | .boolean b => !b
  | .null => true
  | .arr xs => match xs with | .nil => true | _ => false
  | .obj fields => match fields with | .nil => true | _ => false

/-- `FederatedJSONStorage._load_json_entries` validation of one
record: it needs `dn` and `attributes`; `attributes` must be an object
whose values are all lists (json.py:973-980). -/
def validateEntry (e : JsonVal) : Except String Unit :=
  match e.lookupField "dn", e.lookupField "attributes" with
  | some _, some attrs =>
    match attrs with
    | .obj fields =>
      match (fields.toList.find? fun kv =>
          !(match kv.2 with | .arr _ => true | _ => false)) with
      | some kv => .error ("Attribute " ++ kv.1 ++ " values must be a list")
      | none => .ok ()
    | _ => .error "attributes must be a dict of attr to values"
  | _, _ => .error "Each entry needs dn and attributes"

/-- Validate every record of a parsed list in order, returning the
first validation error. -/
def validateEntries : List JsonVal → Except String Unit
  | [] => .ok ()
  | e :: rest =>
    match validateEntry e with
    | .error msg => .error msg
    | .ok () => validateEntries rest

/-- `FederatedJSONStorage._load_json_entries` (json.py:967-981)
applied to already-parsed JSON data: the root must be a JSON list,
each record is validated, and on success the raw record list is
returned unchanged (`return data`). -/
def loadJsonEntries (data : JsonVal) : Except String (List JsonVal) :=
  match data with
  | .arr entries =>
    match validateEntries entries.toList with
    | .error msg => .error msg
    | .ok () => .ok entries.toList
  | _ => .error "JSON root must be a list of entries"

/-- Errors raised by `FederatedJSONStorage._merge_entries`
(json.py:937-965).  `conflict` carries the DN and the offending source
name from the `ValueError` message; `unknownStrategy` is the
`Unknown merge strategy` `ValueError`; `keyError` models the Python
`KeyError` on an entry lacking `dn`/`attributes` (unreachable after
validation). -/
inductive MergeError where
  | conflict (dn : JsonVal) (source : String)
  | unknownStrategy (s : String)
  | keyError
deriving Repr, DecidableEq

/-- The merge target `entries_by_dn`: a Python dict in insertion
order, keyed by the raw `dn` value. -/
abbrev MergeTarget := List (JsonVal × JsonVal)

/-- `target[dn] = attributes` on a Python dict: overwrite in place when
the key exists, append otherwise. -/
def updateAssoc (t : MergeTarget) (k v : JsonVal) : MergeTarget :=
  if (t.lookup k).isSome then
    t.map (fun p => if p.1 = k then (k, v) else p)
  else
    t ++ [(k, v)]

/-- `FederatedJSONStorage._merge_entries` (json.py:937-965): iterate
the new file's entries; a DN already present counts one conflict and
is resolved by the strategy (`first_wins` keeps the existing entry,
`last_wins` overwrites, `error` raises naming the DN and the source,
anything else raises `Unknown merge strategy`). -/
def mergeEntries (strategy sourceName : String) :
    MergeTarget → Nat → List JsonVal → Except MergeError (MergeTarget × Nat)
  | target, conflicts, [] => .ok (target, conflicts)
  | target, conflicts, e :: rest =>
    match e.lookupField "dn", e.lookupField "attributes" with
    | some dn, some attrs =>
      if (target.lookup dn).isSome then
        if strategy = "first_wins" then
          mergeEntries strategy sourceName target (conflicts + 1) rest
        else if strategy = "last_wins" then
          mergeEntries strategy sourceName (updateAssoc target dn attrs) (conflicts + 1) rest
        else if strategy = "error" then
          .error (.conflict dn sourceName)
        else
          .error (.unknownStrategy strategy)
      else
        mergeEntries strategy sourceName (target ++ [(dn, attrs)]) conflicts rest
    | _, _ => .error .keyError

/-! ## Source files and the eager load/merge pipeline -/

/-- A source file as seen by `open` + `json.load`: absent, containing
malformed JSON, or parsing to a JSON value. -/
inductive FileContent where
  | missing
  | malformed
  | parsed (v : JsonVal)
deriving Repr, DecidableEq

/-- One configured JSON source file (`json_files` element). -/
structure SourceFile where
  name : String
  content : FileContent
deriving Repr, DecidableEq

/-- Failures of `FederatedJSONStorage._load_json`: a JSON decode
error, a validation (`Schema`) error from `_load_json_entries`, a
merge error, an index-build error in lazy mode, or the final
`No JSON files could be loaded` `ValueError`. -/
inductive LoadError where
  | jsonDecode (file : String)
  | schema (file : String) (msg : String)
  | merge (e : MergeError)
  | indexError (file : String)
  | noFiles
deriving Repr, DecidableEq

/-- `FederatedJSONStorage._load_and_merge_files` (json.py:890-935):
iterate the configured files in listed order; a missing file is
skipped with a warning; malformed JSON or a validation or merge error
aborts the whole load (re-raised); at the end, zero loaded files is a
`ValueError`.  Returns (`entries_by_dn`, `files_loaded`,
`merge_conflicts`). -/
def loadAndMergeFiles (strategy : String) :
    List SourceFile → MergeTarget → Nat → Nat → Except LoadError (MergeTarget × Nat × Nat)
  | [], target, filesLoaded, conflicts =>
    if filesLoaded = 0 then .error .noFiles else .ok (target, filesLoaded, conflicts)
  | f :: rest, target, filesLoaded, conflicts =>
    match f.content with
    | .missing => loadAndMergeFiles strategy rest target filesLoaded conflicts
    | .malformed => .error (.jsonDecode f.name)
    | .parsed v =>
      match loadJsonEntries v with
      | .error msg => .error (.schema f.name msg)
      | .ok entries =>
        match mergeEntries strategy f.name target 0 entries with
        | .error e => .error (.merge e)
        | .ok (t2, c) => loadAndMergeFiles strategy rest t2 (filesLoaded + 1) (conflicts + c)

/-! ## Password upgrade (`_upgrade_passwords`, json.py:983-1012) -/

/-- Map a function over a JSON array spine. -/
def JL.mapVals (f : JsonVal → JsonVal) : JL → JL
  | .nil => .nil
  | .cons x tl => .cons (f x) (tl.mapVals f)

/-- Hash one `userPassword` value: values without a `{...}` format
prefix are replaced by `hashFn` of the value.  (Python calls
`password.startswith`, which would raise on a non-string password;
such values are outside the modelled domain and are left unchanged
here.) -/
def upgradePassword (hashFn : String → String) (v : JsonVal) : JsonVal :=
  match v with
  | .str s => if s.startsWith "\x7b" then .str s else .str (hashFn s)
  | other => other

/-- Rewrite the `userPassword` field of an attribute object in place,
leaving every other field (and the field order) unchanged. -/
def upgradeFields (hashFn : String → String) : JF → JF
  | .nil => .nil
  | .cons k v tl =>
    let v2 := if k = "userPassword" then
        (match v with
         | .arr xs => JsonVal.arr (xs.mapVals (upgradePassword hashFn))
         | other => other)
      else v
    .cons k v2 (upgradeFields hashFn tl)

/-- `_upgrade_passwords` applied to one record's attribute value. -/
def upgradeAttrs (hashFn : String → String) (attrs : JsonVal) : JsonVal :=
  match attrs with
  | .obj fields => .obj (upgradeFields hashFn fields)
  | other => other

/-! ## DN handling and the LDIF tree builder -/

/-- Comma count of a DN, the sort key of `_build_ldif_tree`
(`dn.count(',')`). -/
def countCommas (dn : String) : Nat := dn.data.count ','

/-- `",".join(components)`. -/
def joinComma (comps : List String) : String := String.intercalate "," comps

/-- `DistinguishedName(stringValue=dn).split()`, most-specific
component first.  The empty string yields no components (the entry is
then skipped); ldaptor's escape handling is not modelled — DNs are
split at every comma, which agrees with ldaptor on the comma-escape-free
DNs handled by every claim. -/
def parseDn (dn : String) : Option (List String) :=
  if dn = "" then some [] else some (dn.splitOn ",")

/-- `rdn.split("=")[0]` / `rdn.split("=")[1]` with the `"=" in rdn`
check of `_ensure_parent_exists` (json.py:1098-1099): note Python's
`[1]` takes the segment between the first and second `=`, not the
whole remainder. -/
def rdnSplit (rdn : String) : String × String :=
  match rdn.splitOn "=" with
  | p0 :: p1 :: _ => (p0, p1)
  | _ => ("cn", rdn)

/-- `rdn.split("=", 1)` of `_get_minimal_attributes_for_dn`
(json.py:854-855): `none` when the RDN has no `=`. -/
def rdnSplitOnce (rdn : String) : Option (String × String) :=
  match rdn.splitOn "=" with
  | p0 :: p1 :: rest => some (p0, String.intercalate "=" (p1 :: rest))
  | _ => none

/-- Synthetic attributes of an intermediate entry created by
`_ensure_parent_exists` (json.py:1101-1112). -/
def ensureParentAttrs (rdn : String) : JsonVal :=
  let (rdnAttr, rdnValue) := rdnSplit rdn
  let oc : List JsonVal :=
    [.str "top"] ++
      (if rdnAttr = "dc" then [.str "domain"]
       else if rdnAttr = "ou" then [.str "organizationalUnit"]
       else if rdnAttr = "cn" then [.str "organizationalRole"]
       else [])
  jobj [(rdnAttr, jarr [.str rdnValue]), ("objectClass", jarr oc)]

/-- `_get_minimal_attributes_for_dn` (json.py:845-877): minimal
attributes for a lazily loaded entry, derived from its RDN. -/
def minimalAttributesForDn (dn : String) : JsonVal :=
  match parseDn dn with
  | some (rdn :: _) =>
    match rdnSplitOnce rdn with
    | some (rdnAttr, rdnValue) =>
      let oc : List JsonVal :=
        [.str "top"] ++
          (if rdnAttr = "dc" then [.str "domain"]
           else if rdnAttr = "ou" then [.str "organizationalUnit"]
           else if rdnAttr = "cn" then [.str "person"]
           else if rdnAttr = "uid" then
             [.str "person", .str "organizationalPerson", .str "inetOrgPerson"]
           else [])
      jobj [("objectClass", jarr oc), (rdnAttr, jarr [.str rdnValue])]
    | none => jobj [("objectClass", jarr [.str "top"])]
  | _ => jobj [("objectClass", jarr [.str "top"])]

/-- A node of the built LDAP tree: its attribute object and its
children keyed by RDN in creation order (`LDIFTreeEntry` with
`_children`). -/
inductive TreeNode where
  | mk (attrs : JsonVal) (children : List (String × TreeNode))

/-- Attributes of a node. -/
def TreeNode.attrs : TreeNode → JsonVal
  | .mk a _ => a

/-- Children of a node. -/
def TreeNode.children : TreeNode → List (String × TreeNode)
  | .mk _ c => c

/-- Children of the node reached by following a root-first path of
RDN components (empty list when the path is absent — unreachable under
the build discipline, where parents are created first). -/
def childrenAt : List String → TreeNode → List (String × TreeNode)
  | [], t => t.children
  | c :: cs, t =>
    match t.children.lookup c with
    | some child => childrenAt cs child
    | none => []

/-- `parent.addChild(rdn, attrs)` at the node reached by a root-first
path: a duplicate RDN raises in ldaptor (the caller catches it and the
tree is unchanged), otherwise a new leaf is appended. -/
def addChildAt : List String → TreeNode → String → JsonVal → TreeNode
  | [], .mk a ch, rdn, attrs =>
    if (ch.lookup rdn).isSome then .mk a ch
    else .mk a (ch ++ [(rdn, .mk attrs [])])
  | c :: cs, .mk a ch, rdn, attrs =>
    .mk a (ch.map fun p => if p.1 = c then (p.1, addChildAt cs p.2 rdn attrs) else p)

/-- `_ensure_parent_exists` (json.py:1071-1129) on a parsed component
list (most-specific first): recursively create missing intermediate
entries grandparent-first, tracking the `created_entries` DN set; an
already-created DN is reused without touching the tree. -/
def ensureParentComps (root : TreeNode) (created : List String) :
    List String → TreeNode × List String
  | [] => (root, created)
  | rdn :: rest =>
    let parentDnStr := joinComma (rdn :: rest)
    if parentDnStr ∈ created then (root, created)
    else
      let (root1, created1) := ensureParentComps root created rest
      if parentDnStr ∈ created1 then (root1, created1)
      else
        (addChildAt rest.reverse root1 rdn (ensureParentAttrs rdn), parentDnStr :: created1)

/-- The DN string of a merge-target key.  A non-string DN would crash
Python's depth sort (`dn.count(',')`) before reaching the tree; such
keys are outside the modelled domain (the tree-level theorems require
string DNs). -/
def dnString : JsonVal → String
  | .str s => s
  | _ => ""

/-- One iteration of the `_build_ldif_tree` main loop
(json.py:1031-1067) over the state (tree root, created DN set): parse
the DN, locate or synthesize the parent, attach the child; a parse
failure or duplicate child skips the record. -/
def buildTreeStep (st : TreeNode × List String) (pair : String × JsonVal) :
    TreeNode × List String :=
  match parseDn pair.1 with
  | none => st
  | some [] => st
  | some (rdn :: parentComps) =>
    let parentDnStr := joinComma parentComps
    let (root1, created1) :=
      if parentDnStr ∈ st.2 then (st.1, st.2)
      else ensureParentComps st.1 st.2 parentComps
    let parentPath := parentComps.reverse
    if ((childrenAt parentPath root1).lookup rdn).isSome then (root1, created1)
    else (addChildAt parentPath root1 rdn pair.2, pair.1 :: created1)

/-- `_build_ldif_tree` (json.py:1014-1069): upgrade passwords when
enabled, then process records shallowest-DN-first (stable sort by
comma count, as Python's `sorted` with a key) into a fresh root. -/
def buildLdifTree (hashPw : Bool) (hashFn : String → String) (target : MergeTarget) : TreeNode :=
  let upgraded := if hashPw then target.map (fun p => (p.1, upgradeAttrs hashFn p.2)) else target
  let pairs := upgraded.map (fun p => (dnString p.1, p.2))
  let sortedPairs := pairs.mergeSort (fun a b => Nat.ble (countCommas a.1) (countCommas b.1))
  (sortedPairs.foldl buildTreeStep (TreeNode.mk (jobj []) [], [""])).1

/-! ## Lazy index (`IndexedJSONFile`) -/

/-- Per-file index update `entry_index[dn] = (i, 1)`: overwrite in
place when the DN is present, append otherwise (constant length 1 is
dropped).  A later duplicate DN in the same file thus keeps the last
entry index. -/
def updateIdx (acc : List (String × Nat)) (dn : String) (i : Nat) : List (String × Nat) :=
  if (acc.lookup dn).isSome then acc.map (fun p => if p.1 = dn then (dn, i) else p)
  else acc ++ [(dn, i)]

/-- `IndexedJSONFile.build_index` body (json.py:196-203): enumerate
the parsed list, skipping entries that are not objects or lack `dn`.
A non-string `dn` is skipped here as well: Python would index it, but
it later crashes the DN sort, so it is outside the modelled domain
(claim-level theorems require string DNs). -/
def buildIndexEntries : List JsonVal → Nat → List (String × Nat) → List (String × Nat)
  | [], _, acc => acc
  | e :: rest, i, acc =>
    match e with
    | .obj fields =>
      match fields.lookup "dn" with
      | some (.str dn) => buildIndexEntries rest (i + 1) (updateIdx acc dn i)
      | _ => buildIndexEntries rest (i + 1) acc
    | _ => buildIndexEntries rest (i + 1) acc

/-- `IndexedJSONFile.build_index` (json.py:178-212): a missing or
malformed file raises (`open`/`json.load`), a non-list root raises
`JSON root must be a list of entries`, otherwise the DN index is
built. -/
def buildIndex (content : FileContent) : Except Unit (List (String × Nat)) :=
  match content with
  | .missing => .error ()
  | .malformed => .error ()
  | .parsed (.arr xs) => .ok (buildIndexEntries xs.toList 0 [])
  | .parsed _ => .error ()

/-- Successfully indexed files in `json_files` order: file name paired
with its DN index (the `_indexed_files` dict, whose iteration the code
always drives through `json_files`). -/
abbrev IndexedFiles := List (String × List (String × Nat))

/-- The file-indexing loop of `_load_with_lazy_loading`
(json.py:719-738): a missing file is skipped with a warning; an index
failure is logged and skipped, except in single-file mode where it is
re-raised. -/
def indexFilesGo (isSingle : Bool) : List SourceFile → IndexedFiles → IndexedFiles × Option LoadError
  | [], acc => (acc, none)
  | f :: rest, acc =>
    match f.content with
    | .missing => indexFilesGo isSingle rest acc
    | c =>
      match buildIndex c with
      | .error () =>
        if isSingle then (acc, some (.indexError f.name))
        else indexFilesGo isSingle rest acc
      | .ok idx => indexFilesGo isSingle rest (acc ++ [(f.name, idx)])

/-! ## Lazy entry references and materialization -/

/-- `LazyEntryReference` (json.py:24-83): DN, owning file path, entry
index, and the loaded-attributes slot (`None` until materialized).
The raw attribute value is stored unvalidated, as in the source. -/
structure LazyEntryReference where
  dn : String
  filePath : String
  entryIndex : Nat
  loadedAttributes : Option JsonVal
deriving Repr, DecidableEq

/-- `LazyEntryReference.is_loaded`. -/
def LazyEntryReference.isLoaded (r : LazyEntryReference) : Bool :=
  r.loadedAttributes.isSome

/-- `LazyEntryReference.unload`. -/
def LazyEntryReference.unload (r : LazyEntryReference) : LazyEntryReference :=
  { r with loadedAttributes := none }

/-- Length of Python `str(value)` for scalar attribute values.  The
printed length of container-valued entries is not modelled (returns 0
there); the cache-bound theorems hold for every size estimate. -/
def pyStrLen : JsonVal → Nat
  | .str s => s.length
  | .num n => (toString n).length
  | .boolean true => 4
  | .boolean false => 5
  | .null => 4
  | .arr _ => 0
  | .obj _ => 0

/-- `for value in values: size += len(str(value)) * 2` of
`get_memory_size`: a list iterates its elements; a string iterates its
characters (each printing at length 1); other value shapes would raise
in Python and contribute 0 here. -/
def attrValuesSize : JsonVal → Nat
  | .arr xs => (xs.toList.map (fun v => pyStrLen v * 2)).sum
  | .str s => 2 * s.length
  | _ => 0

/-- `LazyEntryReference.get_memory_size` (json.py:72-83): 0 when not
loaded, else the double-byte estimate over keys and values. -/
def LazyEntryReference.getMemorySize (r : LazyEntryReference) : Nat :=
  match r.loadedAttributes with
  | none => 0
  | some (.obj fields) =>
    (fields.toList.map (fun kv => kv.1.length * 2 + attrValuesSize kv.2)).sum
  | some _ => 0

/-! ## Bounded LRU cache (`LazyEntryCache`, json.py:86-165) -/

/-- `LazyEntryCache`: recency-ordered entries (front = least recently
used, back = most recent, as the `OrderedDict`) plus the statistics
counters.  The `threading.RLock` serializes every operation; the
embedding models the serialized behavior. -/
structure LazyEntryCache where
  maxEntries : Nat
  maxMemoryBytes : Nat
  cache : List (String × LazyEntryReference)
  hits : Nat
  misses : Nat
  evictions : Nat
  memoryEvictions : Nat
deriving Repr, DecidableEq

/-- `LazyEntryCache.__init__`: `max_memory_bytes = max_memory_mb *
1024 * 1024`, empty cache, zeroed statistics. -/
def mkCache (maxEntries maxMemoryMb : Nat) : LazyEntryCache :=
  { maxEntries := maxEntries
    maxMemoryBytes := maxMemoryMb * 1024 * 1024
    cache := []
    hits := 0, misses := 0, evictions := 0, memoryEvictions := 0 }

/-- `LazyEntryCache._get_total_memory`. -/
def LazyEntryCache.totalMemory (c : LazyEntryCache) : Nat :=
  (c.cache.map (fun p => p.2.getMemorySize)).sum

/-- Total memory of a raw entry list (the loop condition re-reads the
current cache on every iteration). -/
def entryListMemory (l : List (String × LazyEntryReference)) : Nat :=
  (l.map (fun p => p.2.getMemorySize)).sum

/-- `while len(self._cache) > self.max_entries: self._evict_oldest()`:
pop from the least-recently-used end, unloading each evicted
reference; returns the remaining entries and the evicted (unloaded)
references in eviction order. -/
def evictWhileCount (maxEntries : Nat) :
    List (String × LazyEntryReference) →
    List (String × LazyEntryReference) × List LazyEntryReference
  | [] => ([], [])
  | x :: xs =>
    if xs.length + 1 > maxEntries then
      let (rest, ev) := evictWhileCount maxEntries xs
      (rest, x.2.unload :: ev)
    else (x :: xs, [])

/-- `while self._get_total_memory() > self.max_memory_bytes and
self._cache: self._evict_oldest()`. -/
def evictWhileMemory (maxMemoryBytes : Nat) :
    List (String × LazyEntryReference) →
    List (String × LazyEntryReference) × List LazyEntryReference
  | [] => ([], [])
  | x :: xs =>
    if entryListMemory (x :: xs) > maxMemoryBytes then
      let (rest, ev) := evictWhileMemory maxMemoryBytes xs
      (rest, x.2.unload :: ev)
    else (x :: xs, [])

/-- `LazyEntryCache.get` (json.py:101-111): a hit moves the entry to
the most-recent end and returns it; a miss counts and returns
`None`. -/
def LazyEntryCache.get (c : LazyEntryCache) (dn : String) :
    LazyEntryCache × Option LazyEntryReference :=
  match c.cache.lookup dn with
  | some r =>
    ({ c with cache := c.cache.filter (fun p => p.1 != dn) ++ [(dn, r)],
              hits := c.hits + 1 }, some r)
  | none => ({ c with misses := c.misses + 1 }, none)

/-- `LazyEntryCache.put` (json.py:113-136): delete any existing
binding, append as most recent, then evict by count and by memory,
bumping the corresponding statistics per evicted entry.  Returns the
new cache and the evicted (unloaded) references. -/
def LazyEntryCache.put (c : LazyEntryCache) (dn : String) (r : LazyEntryReference) :
    LazyEntryCache × List LazyEntryReference :=
  let added := c.cache.filter (fun p => p.1 != dn) ++ [(dn, r)]
  let (c1, ev1) := evictWhileCount c.maxEntries added
  let (c2, ev2) := evictWhileMemory c.maxMemoryBytes c1
  ({ c with cache := c2,
            evictions := c.evictions + ev1.length,
            memoryEvictions := c.memoryEvictions + ev2.length },
   ev1 ++ ev2)

/-- `LazyEntryCache.clear` (json.py:148-153): unload every entry and
empty the dict; the statistics counters are NOT reset. -/
def LazyEntryCache.clear (c : LazyEntryCache) : LazyEntryCache :=
  { c with cache := [] }

/-- The dictionary returned by `LazyEntryCache.get_stats`
(json.py:155-165); `hit_rate` is the guarded division (a float in
Python, exact rational here). -/
structure CacheStatsReport where
  hits : Nat
  misses : Nat
  evictions : Nat
  memoryEvictions : Nat
  cachedEntries : Nat
  memoryUsageBytes : Nat
  hitRate : ℚ
deriving Repr, DecidableEq

/-- `LazyEntryCache.get_stats`. -/
def LazyEntryCache.getStats (c : LazyEntryCache) : CacheStatsReport :=
  { hits := c.hits
    misses := c.misses
    evictions := c.evictions
    memoryEvictions := c.memoryEvictions
    cachedEntries := c.cache.length
    memoryUsageBytes := c.totalMemory
    hitRate := if c.hits + c.misses > 0 then (c.hits : ℚ) / ((c.hits : ℚ) + (c.misses : ℚ)) else 0 }

/-! ## Materialization (`IndexedJSONFile.load_entry_by_index`,
`LazyEntryReference._load_from_file` / `get_attributes`) -/

/-- `IndexedJSONFile` at materialization time: the owning file path
and its current on-disk content (the file is re-read on every
materialization). -/
structure IndexedJSONFile where
  filePath : String
  content : FileContent
deriving Repr, DecidableEq

/-- `IndexedJSONFile.load_entry_by_index` (json.py:232-245): re-read
and re-parse the file; an unreadable or malformed file raises inside
and is caught to `None`; an in-range index returns the raw entry; an
out-of-range index returns `None` (a non-list root also ends as
`None`). -/
def IndexedJSONFile.loadEntryByIndex (f : IndexedJSONFile) (i : Nat) : Option JsonVal :=
  match f.content with
  | .parsed (.arr xs) => xs.toList.get? i
  | _ => none

/-- `LazyEntryReference._load_from_file` (json.py:45-65): load the
entry by index; a missing entry, a Python-falsy entry, or one without
an `attributes` field raises `ValueError`, which the handler turns
into the empty attribute dict; on success the raw `attributes` value
is stored and the reference is put into the cache when one was
given. -/
def LazyEntryReference.loadFromFile (f : IndexedJSONFile)
    (cache : Option LazyEntryCache) (r : LazyEntryReference) :
    LazyEntryReference × Option LazyEntryCache :=
  match f.loadEntryByIndex r.entryIndex with
  | none => ({ r with loadedAttributes := some (jobj []) }, cache)
  | some entryData =>
    if entryData.falsy || (entryData.lookupField "attributes").isNone then
      ({ r with loadedAttributes := some (jobj []) }, cache)
    else
      let attrs := (entryData.lookupField "attributes").getD (jobj [])
      let r2 := { r with loadedAttributes := some attrs }
      match cache with
      | some c => (r2, some (c.put r.dn r2).1)
      | none => (r2, none)

/-- `LazyEntryReference.get_attributes` (json.py:39-43): return the
loaded attributes, materializing first when necessary. -/
def LazyEntryReference.getAttributes (f : IndexedJSONFile)
    (cache : Option LazyEntryCache) (r : LazyEntryReference) :
    (LazyEntryReference × Option LazyEntryCache) × JsonVal :=
  match r.loadedAttributes with
  | some attrs => ((r, cache), attrs)
  | none =>
    let (r2, c2) := r.loadFromFile f cache
    ((r2, c2), r2.loadedAttributes.getD (jobj []))

/-! ## Paginated search over the lazy index
(`LazySearchIterator`, `PaginatedSearchResult`, json.py:347-502) -/

/-- Code-point-wise strict comparison of character lists, Python's
string `<`. -/
def charListLt : List Char → List Char → Bool
  | [], [] => false
  | [], _ :: _ => true
  | _ :: _, [] => false
  | a :: as, b :: bs => if a < b then true else if b < a then false else charListLt as bs

/-- `a <= b` on strings by code points, the order used by Python's
`sorted`. -/
def dnLeb (a b : String) : Bool := !charListLt b.data a.data

/-- `_get_lazy_reference_for_dn` (json.py:818-843), reduced to the
(file name, entry index) locator the reference carries: `last_wins`
scans the configured files in reverse order, `first_wins` and any
other strategy scan forward; the first index containing the DN
wins. -/
def lookupRefIn (dn : String) : IndexedFiles → Option (String × Nat)
  | [] => none
  | (name, idx) :: rest =>
    match idx.lookup dn with
    | some i => some (name, i)
    | none => lookupRefIn dn rest

/-- Strategy-directed reference selection of
`_get_lazy_reference_for_dn`. -/
def getLazyRefForDn (files : IndexedFiles) (strategy : String) (dn : String) :
    Option (String × Nat) :=
  if strategy = "last_wins" then lookupRefIn dn files.reverse
  else lookupRefIn dn files

/-- All DNs of the indexed files (`indexed_file.get_all_dns()` union),
de-duplicated as a Python set. -/
def allIndexedDns (files : IndexedFiles) : List String :=
  ((files.map (fun f => f.2.map (fun p => p.1))).flatten).dedup

/-- `LazySearchIterator._get_all_dns` (json.py:414-434): union the
per-file DN sets, filter by base DN when one is given
(`dn.endswith(base) or dn == base`), and sort.  The set's iteration
order is irrelevant because the final `sorted` canonicalizes it. -/
def iterGetAllDns (files : IndexedFiles) (baseDn : String) : List String :=
  let all := allIndexedDns files
  let filtered :=
    if baseDn = "" then all
    else all.filter (fun dn => dn.endsWith baseDn || dn = baseDn)
  filtered.mergeSort dnLeb

/-- `PaginatedSearchResult` (json.py:347-398), with page entries
reduced to the DNs of the lazy handles it holds.  `total_pages` uses
Python's floor division (page size 0 would raise there, so theorems
touching it require a positive page size). -/
structure PaginatedSearchResult where
  entries : List String
  pageSize : Nat
  totalCount : Nat
deriving Repr, DecidableEq

/-- `total_pages = (total_count + page_size - 1) // page_size`. -/
def PaginatedSearchResult.totalPages (r : PaginatedSearchResult) : Nat :=
  (r.totalCount + r.pageSize - 1) / r.pageSize

/-- `LazySearchIterator.get_page` (json.py:470-497) with the default
`filter_func=None`: slice the sorted DN list, keep each DN for which a
lazy reference is found, and report the full count. -/
def iterGetPage (files : IndexedFiles) (strategy : String) (baseDn : String)
    (pageSize pageNum : Nat) : PaginatedSearchResult :=
  let allDns := iterGetAllDns files baseDn
  let startIdx := pageNum * pageSize
  let endIdx := min (startIdx + pageSize) allDns.length
  let pageEntries := ((allDns.drop startIdx).take (endIdx - startIdx)).filterMap
    (fun dn => (getLazyRefForDn files strategy dn).map (fun _ => dn))
  { entries := pageEntries, pageSize := pageSize, totalCount := allDns.length }

/-! ## Lazy tree construction (`_build_lazy_ldif_tree`, json.py:752-816) -/

/-- One iteration of the `_build_lazy_ldif_tree` loop: like
`buildTreeStep` but with attributes synthesized from the DN (minimal
attributes when a lazy reference exists, bare `objectClass: top`
otherwise). -/
def buildLazyTreeStep (files : IndexedFiles) (strategy : String)
    (st : TreeNode × List String) (dnStr : String) : TreeNode × List String :=
  match parseDn dnStr with
  | none => st
  | some [] => st
  | some (rdn :: parentComps) =>
    let parentDnStr := joinComma parentComps
    let (root1, created1) :=
      if parentDnStr ∈ st.2 then (st.1, st.2)
      else ensureParentComps st.1 st.2 parentComps
    let attrs :=
      if (getLazyRefForDn files strategy dnStr).isSome then minimalAttributesForDn dnStr
      else jobj [("objectClass", jarr [.str "top"])]
    let parentPath := parentComps.reverse
    if ((childrenAt parentPath root1).lookup rdn).isSome then (root1, created1)
    else (addChildAt parentPath root1 rdn attrs, dnStr :: created1)

/-- `_build_lazy_ldif_tree`: process the collected DNs
shallowest-first into a fresh root of lazy entries. -/
def buildLazyLdifTree (files : IndexedFiles) (strategy : String)
    (allDns : List String) : TreeNode :=
  let sortedDns := allDns.mergeSort (fun a b => Nat.ble (countCommas a) (countCommas b))
  (sortedDns.foldl (buildLazyTreeStep files strategy) (TreeNode.mk (jobj []) [], [""])).1

/-! ## The storage object (`FederatedJSONStorage`) -/

/-- The `load_stats` fields the claims observe (timestamps and wall
clock durations are not modelled). -/
structure LoadStats where
  totalEntries : Nat
  filesLoaded : Nat
  mergeConflicts : Nat
  lazyLoadingEnabled : Bool
deriving Repr, DecidableEq

/-- `FederatedJSONStorage` state: configuration, the published root
(`root_ref["root"]`, `None` before the first successful load), the
lazy index map, the lazy cache (when lazy loading is enabled), the
statistics, and the error log.  `hashFn` abstracts
`PasswordManager.hash_password` (salted, hence an external input). -/
structure Storage where
  jsonFiles : List SourceFile
  mergeStrategy : String
  hashPlainPasswords : Bool
  hashFn : String → String
  enableLazyLoading : Bool
  lazyCacheMaxEntries : Nat
  lazyCacheMaxMemoryMb : Nat
  rootRef : Option TreeNode
  indexedFiles : IndexedFiles
  lazyCache : Option LazyEntryCache
  loadStats : LoadStats
  errorLog : List String

/-- `_update_lazy_load_stats` (json.py:879-888): total entries = size
of the collected DN set, files loaded as counted, and
`merge_conflicts: 0  # No conflicts calculated in lazy mode`. -/
def updateLazyLoadStats (dnCount filesLoaded : Nat) : LoadStats :=
  { totalEntries := dnCount
    filesLoaded := filesLoaded
    mergeConflicts := 0
    lazyLoadingEnabled := true }

/-- `FederatedJSONStorage._load_json` (json.py:673-704): run the lazy
or eager pipeline; only on success are `root_ref["root"]` and the
statistics replaced; on failure the error is logged and re-raised
(returned here as `some e`) with the previous root and statistics
intact.  The lazy path clears the index map and cache before
indexing, so a failed lazy reload leaves them partially rebuilt —
but never the published root. -/
def Storage.loadJson (s : Storage) : Storage × Option LoadError :=
  if s.enableLazyLoading then
    let (indexed, err) := indexFilesGo (s.jsonFiles.length = 1) s.jsonFiles []
    match err with
    | some e =>
      ({ s with indexedFiles := indexed,
                lazyCache := s.lazyCache.map LazyEntryCache.clear,
                errorLog := s.errorLog ++ ["Failed to reload JSON federation"] }, some e)
    | none =>
      if indexed.length = 0 then
        ({ s with indexedFiles := indexed,
                  lazyCache := s.lazyCache.map LazyEntryCache.clear,
                  errorLog := s.errorLog ++ ["Failed to reload JSON federation"] },
         some .noFiles)
      else
        let allDns := allIndexedDns indexed
        let root := buildLazyLdifTree indexed s.mergeStrategy allDns
        ({ s with rootRef := some root,
                  indexedFiles := indexed,
                  lazyCache := s.lazyCache.map LazyEntryCache.clear,
                  loadStats := updateLazyLoadStats allDns.length indexed.length }, none)
  else
    match loadAndMergeFiles s.mergeStrategy s.jsonFiles [] 0 0 with
    | .error e =>
      ({ s with errorLog := s.errorLog ++ ["Failed to reload JSON federation"] }, some e)
    | .ok (target, filesLoaded, conflicts) =>
      let root := buildLdifTree s.hashPlainPasswords s.hashFn target
      ({ s with rootRef := some root,
                loadStats := { totalEntries := target.length
                               filesLoaded := filesLoaded
                               mergeConflicts := conflicts
                               lazyLoadingEnabled := s.loadStats.lazyLoadingEnabled } }, none)

/-- `FederatedFileWatcher._process_pending_reloads` body when pending
reloads exist (json.py:543-554): the reload is attempted; any error is
caught and logged (`Error reloading JSON federation`), never
propagated — the function is total and readers keep the previous
root.  Debounce timing and the pending-file set are wall-clock
behavior outside the embedding. -/
def Storage.processPendingReloads (s : Storage) : Storage :=
  match s.loadJson with
  | (s2, none) => s2
  | (s2, some _) => { s2 with errorLog := s2.errorLog ++ ["Error reloading JSON federation"] }

/-- `FederatedJSONStorage.get_root`. -/
def Storage.getRoot (s : Storage) : Option TreeNode := s.rootRef

/-- The `get_stats` fields the claims observe (json.py:1141-1167):
the `load_stats` dict spread plus the merge strategy. -/
structure StatsReport where
  totalEntries : Nat
  filesLoaded : Nat
  mergeConflicts : Nat
  lazyLoadingEnabled : Bool
  mergeStrategy : String
deriving Repr, DecidableEq

/-- `FederatedJSONStorage.get_stats`, reduced to the modelled fields. -/
def Storage.getStats (s : Storage) : StatsReport :=
  { totalEntries := s.loadStats.totalEntries
    filesLoaded := s.loadStats.filesLoaded
    mergeConflicts := s.loadStats.mergeConflicts
    lazyLoadingEnabled := s.loadStats.lazyLoadingEnabled
    mergeStrategy := s.mergeStrategy }

/-- `FederatedJSONStorage.search_paginated` (json.py:1169-1176):
raises `ValueError` unless lazy loading is enabled, else pages via a
fresh `LazySearchIterator`. -/
def Storage.searchPaginated (s : Storage) (baseDn : String) (pageSize pageNum : Nat) :
    Except String PaginatedSearchResult :=
  if !s.enableLazyLoading then .error "Paginated search requires lazy loading to be enabled"
  else .ok (iterGetPage s.indexedFiles s.mergeStrategy baseDn pageSize pageNum)

/-- `FederatedJSONStorage.create_search_iterator` (json.py:1178-1184):
raises `ValueError` unless lazy loading is enabled; the returned
iterator is determined by the storage's index, strategy, base DN and
page size, captured here. -/
def Storage.createSearchIterator (s : Storage) (baseDn : String) (pageSize : Nat) :
    Except String (IndexedFiles × String × String × Nat) :=
  if !s.enableLazyLoading then .error "Search iterator requires lazy loading to be enabled"
  else .ok (s.indexedFiles, s.mergeStrategy, baseDn, pageSize)

/-- The state `FederatedJSONStorage.__init__` (json.py:568-647) builds
before its initial `_load_json` call.  Note: `merge_strategy` is
stored without any validation. -/
def Storage.initState (files : List SourceFile) (strategy : String)
    (hashPw : Bool) (hashFn : String → String) (lazy : Bool)
    (maxEntries maxMemoryMb : Nat) : Storage :=
  { jsonFiles := files
    mergeStrategy := strategy
    hashPlainPasswords := hashPw
    hashFn := hashFn
    enableLazyLoading := lazy
    lazyCacheMaxEntries := maxEntries
    lazyCacheMaxMemoryMb := maxMemoryMb
    rootRef := none
    indexedFiles := []
    lazyCache := if lazy then some (mkCache maxEntries maxMemoryMb) else none
    loadStats := { totalEntries := 0, filesLoaded := 0, mergeConflicts := 0,
                   lazyLoadingEnabled := lazy }
    errorLog := [] }

/-- `FederatedJSONStorage.__init__`: build the initial state and run
the initial load; a load failure propagates out of the constructor
(returned as `some e`). -/
def Storage.construct (files : List SourceFile) (strategy : String)
    (hashPw : Bool) (hashFn : String → String) (lazy : Bool)
    (maxEntries maxMemoryMb : Nat) : Storage × Option LoadError :=
  (Storage.initState files strategy hashPw hashFn lazy maxEntries maxMemoryMb).loadJson

/-! ## Atomic writer -/

/-- Modelled from the spec: `AtomicJSONWriter` is imported by
`src/tests/unit/test_atomic_write_operations.py` from
`ldap_server.storage.json` but no definition of it exists under
`src/`, so the write protocol is modelled from spec section 4.6.  The
observable file-system state around one write attempt: the target
file's content, the writer's sibling temporary file, the backup copies
made so far, and whether the writer's lock file is present. -/
structure WriterFs where
  target : Option String
  tempFile : Option String
  backups : List String
  lockFile : Bool
deriving Repr, DecidableEq

/-- Modelled from the spec: the failure points of section 4.6 that
precede the atomic rename of step (5): lock acquisition timing out
(step 1), the backup copy failing (step 2), writing the temporary
file failing (step 3), and the flush/fsync failing (step 4). -/
inductive WriteFailure where
  | lockTimeout
  | backupFailed
  | writeFailed
  | fsyncFailed
deriving Repr, DecidableEq

/-- Modelled from the spec: outcome of a write attempt. -/
inductive WriteOutcome where
  | committed
  | failed (e : WriteFailure)
deriving Repr, DecidableEq

/-- Modelled from the spec: one `AtomicJSONWriter` write attempt per
section 4.6 — (1) acquire the lock, (2) back up the existing target
when backups are enabled, (3) write the new content to a sibling
temporary file, (4) flush it to stable storage, (5) atomically rename
it over the target; on any failure before the rename the temporary
file is deleted and the target is untouched; (6) the lock is released
and the lock file removed on every exit path.  `failure` injects the
step at which the attempt fails (`none` = the attempt reaches the
rename). -/
def atomicWrite (fs : WriterFs) (newContent : String) (backupEnabled : Bool)
    (failure : Option WriteFailure) : WriterFs × WriteOutcome :=
  match failure with
  | some .lockTimeout =>
    ({ fs with lockFile := false }, .failed .lockTimeout)
  | some .backupFailed =>
    ({ fs with tempFile := none, lockFile := false }, .failed .backupFailed)
  | some .writeFailed =>
    ({ fs with tempFile := none, lockFile := false }, .failed .writeFailed)
  | some .fsyncFailed =>
    ({ fs with tempFile := none, lockFile := false }, .failed .fsyncFailed)
  | none =>
    let backups :=
      if backupEnabled then
        match fs.target with
        | some old => fs.backups ++ [old]
        | none => fs.backups
      else fs.backups
    ({ target := some newContent, tempFile := none, backups := backups,
       lockFile := false }, .committed)

/-! ## Shared helper lemmas and sample data -/

/-- Array spine round trip. -/
theorem JL.toList_ofList (xs : List JsonVal) : (JL.ofList xs).toList = xs := by
  induction xs with
  | nil => rfl
  | cons x tl ih => simp [JL.ofList, JL.toList, ih]

/-- A well-formed sample record used by concrete witnesses. -/
def sampleRecord : JsonVal :=
  jobj [("dn", .str "dc=example,dc=com"),
        ("attributes", jobj [("dc", jarr [.str "example"])])]

/-! ## Claim theorems -/

/-- C1: a write attempt through the Atomic Writer that fails before
the final atomic rename leaves the target file's content unchanged
(any reader sees the fully-old content) and deletes the temporary
file.  (Spec-modelled: `AtomicJSONWriter` is absent from `src/`.) -/
theorem spec_C1_atomic_write_all_or_nothing
    (fs : WriterFs) (newContent : String) (backupEnabled : Bool) (f : WriteFailure)
    (hTemp : fs.tempFile = none) :
    (atomicWrite fs newContent backupEnabled (some f)).1.target = fs.target ∧
    (atomicWrite fs newContent backupEnabled (some f)).1.tempFile = none ∧
    (atomicWrite fs newContent backupEnabled (some f)).2 = .failed f := by
  cases f <;> simp [atomicWrite, hTemp]

/-- C1 witness: a write of `"new"` over target content `"old"` that
fails at the temp-file write leaves the target at `"old"` with no
temporary file. -/
theorem spec_C1_witness :
    (WriterFs.mk (some "old") none [] false).tempFile = none ∧
    ((atomicWrite (WriterFs.mk (some "old") none [] false) "new" true
        (some .writeFailed)).1.target = (WriterFs.mk (some "old") none [] false).target ∧
     (atomicWrite (WriterFs.mk (some "old") none [] false) "new" true
        (some .writeFailed)).1.tempFile = none ∧
     (atomicWrite (WriterFs.mk (some "old") none [] false) "new" true
        (some .writeFailed)).2 = .failed .writeFailed) :=
  ⟨rfl, spec_C1_atomic_write_all_or_nothing _ "new" true .writeFailed rfl⟩

/-- C7 counterexample: the Entry Loader rejects a JSON object with an
`entries` key wrapping a valid record list — `_load_json_entries`
raises `JSON root must be a list of entries` for every non-list root,
contradicting the claimed acceptance of the object form. -/
theorem spec_C7_counterexample :
    loadJsonEntries (jobj [("entries", jarr [sampleRecord])]) =
      .error "JSON root must be a list of entries" := rfl

/-- C7 amended: for every valid list of records the Entry Loader
accepts the bare JSON list form, returning the same ordered record
list, but rejects an object form (any object, in particular one with
an `entries` key) with `JSON root must be a list of entries`. -/
theorem spec_C7_loader_accepts_only_bare_list
    (es : List JsonVal) (h : validateEntries es = .ok ())
    (fields : List (String × JsonVal)) :
    loadJsonEntries (jarr es) = .ok es ∧
    loadJsonEntries (jobj fields) = .error "JSON root must be a list of entries" := by
  refine ⟨?_, rfl⟩
  simp [loadJsonEntries, jarr, JL.toList_ofList, h]

/-- C7 witness: the sample record list validates and loads as-is from
the bare list form. -/
theorem spec_C7_witness :
    validateEntries [sampleRecord] = .ok () ∧
    loadJsonEntries (jarr [sampleRecord]) = .ok [sampleRecord] :=
  ⟨rfl, (spec_C7_loader_accepts_only_bare_list [sampleRecord] rfl []).1⟩

/-- C5: when materializing a lazy reference fails — the owning file is
unreadable or re-parses invalid (`load_entry_by_index` yields `None`),
the entry is missing/falsy, or it has no `attributes` field —
`get_attributes` returns the empty attribute dict instead of raising
(the embedding is total: the `ValueError` is caught inside
`_load_from_file`), and the cache is left untouched. -/
theorem spec_C5_materialization_failure_yields_empty
    (f : IndexedJSONFile) (cache : Option LazyEntryCache) (r : LazyEntryReference)
    (hNotLoaded : r.loadedAttributes = none)
    (hFail : f.loadEntryByIndex r.entryIndex = none ∨
      ∃ e, f.loadEntryByIndex r.entryIndex = some e ∧
        (e.falsy = true ∨ e.lookupField "attributes" = none)) :
    (LazyEntryReference.getAttributes f cache r).2 = jobj [] ∧
    (LazyEntryReference.getAttributes f cache r).1.2 = cache := by
  rcases hFail with h | ⟨e, he, hcond⟩
  · simp [LazyEntryReference.getAttributes, hNotLoaded, LazyEntryReference.loadFromFile, h]
  · rcases hcond with hf | ha
    · simp [LazyEntryReference.getAttributes, hNotLoaded, LazyEntryReference.loadFromFile,
             he, hf]
    · simp [LazyEntryReference.getAttributes, hNotLoaded, LazyEntryReference.loadFromFile,
             he, ha]

/-- C5 witness: a reference into a file whose current content is
malformed JSON materializes to the empty attribute dict. -/
theorem spec_C5_witness :
    (LazyEntryReference.mk "uid=x" "broken.json" 0 none).loadedAttributes = none ∧
    (IndexedJSONFile.mk "broken.json" .malformed).loadEntryByIndex 0 = none ∧
    (LazyEntryReference.getAttributes (IndexedJSONFile.mk "broken.json" .malformed) none
        (LazyEntryReference.mk "uid=x" "broken.json" 0 none)).2 = jobj [] :=
  ⟨rfl, rfl,
   (spec_C5_materialization_failure_yields_empty
      (IndexedJSONFile.mk "broken.json" .malformed) none
      (LazyEntryReference.mk "uid=x" "broken.json" 0 none) rfl (Or.inl rfl)).1⟩

/-! ## Cache lemmas -/

/-- An unloaded reference reports not loaded. -/
theorem isLoaded_unload (r : LazyEntryReference) : r.unload.isLoaded = false := rfl

/-- The count-eviction loop leaves at most `maxEntries` entries. -/
theorem evictWhileCount_length_le (maxEntries : Nat)
    (l : List (String × LazyEntryReference)) :
    (evictWhileCount maxEntries l).1.length ≤ maxEntries := by
  induction l with
  | nil => simp [evictWhileCount]
  | cons x xs ih =>
    rw [evictWhileCount]
    split
    · exact ih
    · next h => simpa using Nat.le_of_not_lt h

/-- The memory-eviction loop only removes entries. -/
theorem evictWhileMemory_length_le (maxMemoryBytes : Nat)
    (l : List (String × LazyEntryReference)) :
    (evictWhileMemory maxMemoryBytes l).1.length ≤ l.length := by
  induction l with
  | nil => simp [evictWhileMemory]
  | cons x xs ih =>
    rw [evictWhileMemory]
    split
    · exact Nat.le_trans ih (Nat.le_succ _)
    · exact Nat.le_refl _

/-- The memory-eviction loop brings the estimate within the bound. -/
theorem evictWhileMemory_memory_le (maxMemoryBytes : Nat)
    (l : List (String × LazyEntryReference)) :
    entryListMemory (evictWhileMemory maxMemoryBytes l).1 ≤ maxMemoryBytes := by
  induction l with
  | nil => simp [evictWhileMemory, entryListMemory]
  | cons x xs ih =>
    rw [evictWhileMemory]
    split
    · exact ih
    · next h => exact Nat.le_of_not_lt h

/-- Every reference evicted by the count loop has been unloaded. -/
theorem evictWhileCount_unloaded (maxEntries : Nat)
    (l : List (String × LazyEntryReference)) :
    ∀ e ∈ (evictWhileCount maxEntries l).2, e.isLoaded = false := by
  induction l with
  | nil => simp [evictWhileCount]
  | cons x xs ih =>
    rw [evictWhileCount]
    split
    · intro e he
      rcases List.mem_cons.mp he with h | h
      · subst h; rfl
      · exact ih e h
    · simp

/-- Every reference evicted by the memory loop has been unloaded. -/
theorem evictWhileMemory_unloaded (maxMemoryBytes : Nat)
    (l : List (String × LazyEntryReference)) :
    ∀ e ∈ (evictWhileMemory maxMemoryBytes l).2, e.isLoaded = false := by
  induction l with
  | nil => simp [evictWhileMemory]
  | cons x xs ih =>
    rw [evictWhileMemory]
    split
    · intro e he
      rcases List.mem_cons.mp he with h | h
      · subst h; rfl
      · exact ih e h
    · simp

/-- `put` keeps the configured bounds. -/
theorem put_maxEntries (c : LazyEntryCache) (dn : String) (r : LazyEntryReference) :
    (c.put dn r).1.maxEntries = c.maxEntries := rfl

/-- `put` keeps the configured memory bound. -/
theorem put_maxMemoryBytes (c : LazyEntryCache) (dn : String) (r : LazyEntryReference) :
    (c.put dn r).1.maxMemoryBytes = c.maxMemoryBytes := rfl

/-- After one `put` the entry count is within `max_entries`. -/
theorem put_length_le (c : LazyEntryCache) (dn : String) (r : LazyEntryReference) :
    (c.put dn r).1.cache.length ≤ c.maxEntries := by
  unfold LazyEntryCache.put
  exact Nat.le_trans
    (evictWhileMemory_length_le _ _)
    (evictWhileCount_length_le _ _)

/-- After one `put` the memory estimate is within `max_memory_bytes`. -/
theorem put_memory_le (c : LazyEntryCache) (dn : String) (r : LazyEntryReference) :
    (c.put dn r).1.totalMemory ≤ c.maxMemoryBytes := by
  unfold LazyEntryCache.put LazyEntryCache.totalMemory
  exact evictWhileMemory_memory_le _ _

/-- Every reference evicted by one `put` has been unloaded. -/
theorem put_evicted_unloaded (c : LazyEntryCache) (dn : String) (r : LazyEntryReference) :
    ∀ e ∈ (c.put dn r).2, e.isLoaded = false := by
  unfold LazyEntryCache.put
  intro e he
  rcases List.mem_append.mp he with h | h
  · exact evictWhileCount_unloaded _ _ e h
  · exact evictWhileMemory_unloaded _ _ e h

/-- C4: after every `put` on the bounded LRU cache the cache holds at
most `max_entries` entries and its estimated byte size is at most
`max_memory_bytes`; every reference evicted to restore the bounds is
unloaded, so it reports `is_loaded() == false`; consequently, after
any non-empty sequence of puts (in particular after inserting more
than `max_entries` distinct paths) both bounds hold. -/
theorem spec_C4_cache_put_bounds
    (c : LazyEntryCache) (dn : String) (r : LazyEntryReference) :
    ((c.put dn r).1.cache.length ≤ (c.put dn r).1.maxEntries) ∧
    ((c.put dn r).1.totalMemory ≤ (c.put dn r).1.maxMemoryBytes) ∧
    (∀ e ∈ (c.put dn r).2, e.isLoaded = false) ∧
    (∀ (ops : List (String × LazyEntryReference)) (c0 : LazyEntryCache), ops ≠ [] →
      (ops.foldl (fun acc p => (acc.put p.1 p.2).1) c0).cache.length ≤
        (ops.foldl (fun acc p => (acc.put p.1 p.2).1) c0).maxEntries ∧
      (ops.foldl (fun acc p => (acc.put p.1 p.2).1) c0).totalMemory ≤
        (ops.foldl (fun acc p => (acc.put p.1 p.2).1) c0).maxMemoryBytes) := by
  refine ⟨?_, ?_, put_evicted_unloaded c dn r, ?_⟩
  · rw [put_maxEntries]; exact put_length_le c dn r
  · rw [put_maxMemoryBytes]; exact put_memory_le c dn r
  · intro ops c0 hne
    rcases (List.eq_nil_or_concat ops) with h | ⟨front, p, rfl⟩
    · exact absurd h hne
    · rw [List.concat_eq_append, List.foldl_append]
      simp only [List.foldl_cons, List.foldl_nil]
      constructor
      · rw [put_maxEntries]; exact put_length_le _ _ _
      · rw [put_maxMemoryBytes]; exact put_memory_le _ _ _

/-- C4 witness: inserting three distinct loaded entries into a
two-entry cache keeps it within both bounds. -/
theorem spec_C4_witness :
    ([("a", LazyEntryReference.mk "a" "f" 0 (some (jobj []))),
      ("b", LazyEntryReference.mk "b" "f" 1 (some (jobj []))),
      ("c", LazyEntryReference.mk "c" "f" 2 (some (jobj [])))] ≠
        ([] : List (String × LazyEntryReference))) ∧
    (([("a", LazyEntryReference.mk "a" "f" 0 (some (jobj []))),
       ("b", LazyEntryReference.mk "b" "f" 1 (some (jobj []))),
       ("c", LazyEntryReference.mk "c" "f" 2 (some (jobj [])))].foldl
         (fun acc p => (acc.put p.1 p.2).1) (mkCache 2 1)).cache.length ≤
      ([("a", LazyEntryReference.mk "a" "f" 0 (some (jobj []))),
        ("b", LazyEntryReference.mk "b" "f" 1 (some (jobj []))),
        ("c", LazyEntryReference.mk "c" "f" 2 (some (jobj [])))].foldl
          (fun acc p => (acc.put p.1 p.2).1) (mkCache 2 1)).maxEntries) := by
  refine ⟨by decide, ?_⟩
  exact ((spec_C4_cache_put_bounds (mkCache 2 1) "a"
      (LazyEntryReference.mk "a" "f" 0 (some (jobj [])))).2.2.2
    _ (mkCache 2 1) (by decide)).1

/-! ## Cache operation sequences (for the hit-rate statistic) -/

/-- One serialized cache operation. -/
inductive CacheOp where
  | get (dn : String)
  | put (dn : String) (r : LazyEntryReference)
deriving Repr

/-- Apply one operation to the cache state. -/
def applyCacheOp (c : LazyEntryCache) : CacheOp → LazyEntryCache
  | .get dn => (c.get dn).1
  | .put dn r => (c.put dn r).1

/-- Whether an operation is a `get` (the only operation that touches
the hit/miss counters). -/
def isGetOp : CacheOp → Bool
  | .get _ => true
  | .put _ _ => false

/-- A freshly constructed cache after a sequence of operations. -/
def runCacheOps (maxEntries maxMemoryMb : Nat) (ops : List CacheOp) : LazyEntryCache :=
  ops.foldl applyCacheOp (mkCache maxEntries maxMemoryMb)

/-- `hits + misses` advances by exactly one per `get` and is untouched
by `put`. -/
theorem foldl_applyCacheOp_gets (ops : List CacheOp) :
    ∀ c : LazyEntryCache,
      (ops.foldl applyCacheOp c).hits + (ops.foldl applyCacheOp c).misses
        = c.hits + c.misses + ops.countP isGetOp := by
  induction ops with
  | nil => intro c; simp
  | cons op rest ih =>
    intro c
    rw [List.foldl_cons, List.countP_cons, ih]
    cases op with
    | get dn =>
      simp only [applyCacheOp, LazyEntryCache.get, isGetOp]
      cases h : c.cache.lookup dn <;> simp [h] <;> omega
    | put dn r =>
      simp only [applyCacheOp, LazyEntryCache.put, isGetOp]
      simp

/-- C10: the cache's `get_stats` reports `hit_rate` as the guarded
division — `hits / (hits + misses)` exactly on the branch where at
least one `get` has occurred (`hits + misses` equals the number of
gets performed), and `0` when `hits + misses = 0` — so the statistic
is defined (no division by zero is attempted) for every reachable
cache state. -/
theorem spec_C10_cache_hit_rate (maxEntries maxMemoryMb : Nat) (ops : List CacheOp) :
    ((runCacheOps maxEntries maxMemoryMb ops).getStats.hitRate =
      if (runCacheOps maxEntries maxMemoryMb ops).hits +
         (runCacheOps maxEntries maxMemoryMb ops).misses = 0 then 0
      else ((runCacheOps maxEntries maxMemoryMb ops).hits : ℚ) /
        (((runCacheOps maxEntries maxMemoryMb ops).hits : ℚ) +
         ((runCacheOps maxEntries maxMemoryMb ops).misses : ℚ))) ∧
    ((runCacheOps maxEntries maxMemoryMb ops).hits +
      (runCacheOps maxEntries maxMemoryMb ops).misses = ops.countP isGetOp) ∧
    (0 < ops.countP isGetOp →
      (runCacheOps maxEntries maxMemoryMb ops).getStats.hitRate =
        ((runCacheOps maxEntries maxMemoryMb ops).hits : ℚ) /
          (((runCacheOps maxEntries maxMemoryMb ops).hits : ℚ) +
           ((runCacheOps maxEntries maxMemoryMb ops).misses : ℚ))) ∧
    (ops.countP isGetOp = 0 →
      (runCacheOps maxEntries maxMemoryMb ops).getStats.hitRate = 0) := by
  have hsum : (runCacheOps maxEntries maxMemoryMb ops).hits +
      (runCacheOps maxEntries maxMemoryMb ops).misses = ops.countP isGetOp := by
    have h := foldl_applyCacheOp_gets ops (mkCache maxEntries maxMemoryMb)
    simpa [runCacheOps, mkCache] using h
  refine ⟨?_, hsum, ?_, ?_⟩
  · by_cases h : (runCacheOps maxEntries maxMemoryMb ops).hits +
        (runCacheOps maxEntries maxMemoryMb ops).misses = 0
    · simp [LazyEntryCache.getStats, h]
    · simp [LazyEntryCache.getStats, h, Nat.pos_of_ne_zero h]
  · intro hpos
    have h : (runCacheOps maxEntries maxMemoryMb ops).hits +
        (runCacheOps maxEntries maxMemoryMb ops).misses > 0 := by omega
    simp [LazyEntryCache.getStats, h]
  · intro hzero
    have h : (runCacheOps maxEntries maxMemoryMb ops).hits +
        (runCacheOps maxEntries maxMemoryMb ops).misses = 0 := by omega
    simp [LazyEntryCache.getStats, h]

/-- C10 witness: after one `get` on a fresh cache (a miss), the hit
rate is computed by the division branch. -/
theorem spec_C10_witness :
    0 < ([CacheOp.get "a"].countP isGetOp) ∧
    (runCacheOps 10 1 [CacheOp.get "a"]).getStats.hitRate =
      ((runCacheOps 10 1 [CacheOp.get "a"]).hits : ℚ) /
        (((runCacheOps 10 1 [CacheOp.get "a"]).hits : ℚ) +
         ((runCacheOps 10 1 [CacheOp.get "a"]).misses : ℚ)) :=
  ⟨by decide, (spec_C10_cache_hit_rate 10 1 [CacheOp.get "a"]).2.2.1 (by decide)⟩

/-! ## Storage reload lemmas -/

/-- Branch analysis of `_load_json`: the lazy-loading flag is never
changed; on failure the published root, statistics and (modulo the
logged line) the log are untouched; a successful lazy-mode load
always writes a zero `merge_conflicts` statistic. -/
theorem loadJson_fields (s : Storage) :
    (s.loadJson).1.enableLazyLoading = s.enableLazyLoading ∧
    ((s.loadJson).2 ≠ none →
      (s.loadJson).1.rootRef = s.rootRef ∧
      (s.loadJson).1.loadStats = s.loadStats ∧
      (s.loadJson).1.errorLog = s.errorLog ++ ["Failed to reload JSON federation"]) ∧
    (s.enableLazyLoading = true → (s.loadJson).2 = none →
      (s.loadJson).1.loadStats.mergeConflicts = 0) := by
  by_cases hl : s.enableLazyLoading = true
  · rcases hidx : indexFilesGo (decide (s.jsonFiles.length = 1)) s.jsonFiles []
      with ⟨indexed, err⟩
    cases err with
    | some e2 =>
      refine ⟨?_, ?_, ?_⟩ <;> simp [Storage.loadJson, hl, hidx]
    | none =>
      by_cases hz : indexed.length = 0
      · refine ⟨?_, ?_, ?_⟩ <;> simp [Storage.loadJson, hl, hidx, hz]
      · refine ⟨?_, ?_, ?_⟩ <;>
          simp [Storage.loadJson, hl, hidx, hz, updateLazyLoadStats]
  · cases hm : loadAndMergeFiles s.mergeStrategy s.jsonFiles [] 0 0 with
    | error e2 =>
      refine ⟨?_, ?_, ?_⟩ <;> simp [Storage.loadJson, hl, hm]
    | ok res =>
      refine ⟨?_, ?_, ?_⟩ <;> simp [Storage.loadJson, hl, hm]

/-- C3: when a hot reload triggered by the file watcher fails (for
example, a source file now holds malformed JSON), the previously
published tree stays in place — `get_root()` afterwards returns the
same root as before — and the failure is appended to the log instead
of propagating (the handler is a total function on storage states). -/
theorem spec_C3_failed_reload_keeps_previous_tree (s : Storage) (e : LoadError)
    (hFail : (s.loadJson).2 = some e) :
    s.processPendingReloads.rootRef = s.rootRef ∧
    s.processPendingReloads.getRoot = s.getRoot ∧
    s.processPendingReloads.errorLog =
      s.errorLog ++ ["Failed to reload JSON federation", "Error reloading JSON federation"] := by
  have hstate := (loadJson_fields s).2.1 (by rw [hFail]; exact fun h => Option.noConfusion h)
  rcases hlj : s.loadJson with ⟨s2, oe⟩
  rw [hlj] at hFail hstate
  simp only at hFail
  subst hFail
  unfold Storage.processPendingReloads
  rw [hlj]
  simp only [Storage.getRoot]
  refine ⟨hstate.1, hstate.1, ?_⟩
  rw [hstate.2.2, List.append_assoc]
  rfl

/-- Concrete storage whose single source file has turned into
malformed JSON while an earlier load's tree is still published. -/
def c3Storage : Storage :=
  { jsonFiles := [⟨"data.json", .malformed⟩]
    mergeStrategy := "last_wins"
    hashPlainPasswords := false
    hashFn := id
    enableLazyLoading := false
    lazyCacheMaxEntries := 1000
    lazyCacheMaxMemoryMb := 100
    rootRef := some (TreeNode.mk (jobj []) [])
    indexedFiles := []
    lazyCache := none
    loadStats := ⟨0, 0, 0, false⟩
    errorLog := [] }

/-- C3 witness: the reload of `c3Storage` fails on the malformed file
and the watcher handler keeps the published root. -/
theorem spec_C3_witness :
    (c3Storage.loadJson).2 = some (.jsonDecode "data.json") ∧
    c3Storage.processPendingReloads.rootRef = c3Storage.rootRef :=
  ⟨rfl, (spec_C3_failed_reload_keeps_previous_tree c3Storage (.jsonDecode "data.json") rfl).1⟩

/-! ## C9: merge-conflict statistic in lazy mode -/

/-- The watcher observing changed source files and firing one
debounced reload: the storage re-reads the (possibly changed) file
set. -/
def reloadWithFiles (s : Storage) (files : List SourceFile) : Storage :=
  ({ s with jsonFiles := files }).processPendingReloads

/-- One watcher reload preserves the lazy flag and the zero
merge-conflict statistic. -/
theorem reloadWithFiles_lazy_zero (s : Storage) (files : List SourceFile)
    (hl : s.enableLazyLoading = true) (hz : s.loadStats.mergeConflicts = 0) :
    (reloadWithFiles s files).enableLazyLoading = true ∧
    (reloadWithFiles s files).loadStats.mergeConflicts = 0 := by
  unfold reloadWithFiles Storage.processPendingReloads
  have hfields := loadJson_fields { s with jsonFiles := files }
  rcases hlj : ({ s with jsonFiles := files } : Storage).loadJson with ⟨s2, oe⟩
  rw [hlj] at hfields
  cases oe with
  | none =>
    simp only
    exact ⟨by rw [hfields.1]; exact hl, hfields.2.2 hl rfl⟩
  | some e =>
    simp only
    have h2 := hfields.2.1 (fun h => Option.noConfusion h)
    exact ⟨by rw [hfields.1]; exact hl, by rw [h2.2.1]; exact hz⟩

/-- C9: with lazy loading enabled, `_update_lazy_load_stats` writes
`merge_conflicts = 0` on every successful load regardless of how many
paths are defined by several source files, and a failed load keeps the
previous statistics — so across construction and any sequence of
watcher reloads over any file contents, `get_stats` always reports a
zero merge-conflict count in lazy mode. -/
theorem spec_C9_lazy_mode_zero_merge_conflicts
    (files0 : List SourceFile) (strategy : String) (hashPw : Bool)
    (hashFn : String → String) (maxE maxMb : Nat)
    (updates : List (List SourceFile)) :
    (∀ s : Storage, s.enableLazyLoading = true → (s.loadJson).2 = none →
      (s.loadJson).1.loadStats.mergeConflicts = 0) ∧
    (updates.foldl reloadWithFiles
      (Storage.construct files0 strategy hashPw hashFn true maxE maxMb).1).getStats.mergeConflicts
        = 0 := by
  constructor
  · intro s hl hok
    exact (loadJson_fields s).2.2 hl hok
  · have hbase : (Storage.construct files0 strategy hashPw hashFn true maxE maxMb).1.enableLazyLoading = true ∧
        (Storage.construct files0 strategy hashPw hashFn true maxE maxMb).1.loadStats.mergeConflicts = 0 := by
      unfold Storage.construct
      have hinit : (Storage.initState files0 strategy hashPw hashFn true maxE maxMb).enableLazyLoading = true := rfl
      have hfields := loadJson_fields (Storage.initState files0 strategy hashPw hashFn true maxE maxMb)
      rcases hlj : (Storage.initState files0 strategy hashPw hashFn true maxE maxMb).loadJson with ⟨s2, oe⟩
      rw [hlj] at hfields
      cases oe with
      | none => exact ⟨by rw [hfields.1]; rfl, hfields.2.2 hinit rfl⟩
      | some e =>
        have h2 := hfields.2.1 (fun h => Option.noConfusion h)
        exact ⟨by rw [hfields.1]; rfl, by rw [h2.2.1]; rfl⟩
    have hfold : ∀ (us : List (List SourceFile)) (s : Storage),
        s.enableLazyLoading = true → s.loadStats.mergeConflicts = 0 →
        (us.foldl reloadWithFiles s).enableLazyLoading = true ∧
        (us.foldl reloadWithFiles s).loadStats.mergeConflicts = 0 := by
      intro us
      induction us with
      | nil => intro s hl hz; exact ⟨hl, hz⟩
      | cons u rest ih =>
        intro s hl hz
        have hstep := reloadWithFiles_lazy_zero s u hl hz
        exact ih _ hstep.1 hstep.2
    have := hfold updates _ hbase.1 hbase.2
    simpa [Storage.getStats] using this.2

/-- A second sample record with the same DN as `sampleRecord` but
different attributes (a cross-file duplicate path). -/
def sampleRecordB : JsonVal :=
  jobj [("dn", .str "dc=example,dc=com"),
        ("attributes", jobj [("dc", jarr [.str "other"])])]

/-- C9 witness: a lazy-mode storage over two files that both define
`dc=example,dc=com` loads successfully and still reports zero merge
conflicts. -/
theorem spec_C9_witness :
    ((Storage.construct [⟨"a.json", .parsed (jarr [sampleRecord])⟩,
        ⟨"b.json", .parsed (jarr [sampleRecordB])⟩]
        "last_wins" false id true 10 10).1.loadJson).2 = none ∧
    ((Storage.construct [⟨"a.json", .parsed (jarr [sampleRecord])⟩,
        ⟨"b.json", .parsed (jarr [sampleRecordB])⟩]
        "last_wins" false id true 10 10).1.loadJson).1.loadStats.mergeConflicts = 0 := by
  constructor
  · rfl
  · exact (spec_C9_lazy_mode_zero_merge_conflicts
      [⟨"a.json", .parsed (jarr [sampleRecord])⟩, ⟨"b.json", .parsed (jarr [sampleRecordB])⟩]
      "last_wins" false id 10 10 []).1 _ rfl rfl

/-! ## Merge-engine analysis: DN bookkeeping -/

/-- The `dn` values of a record list, in order. -/
def dnsOf (es : List JsonVal) : List JsonVal :=
  es.filterMap (fun e => e.lookupField "dn")

/-- How often a record list defines the path `p`. -/
def countDn (es : List JsonVal) (p : JsonVal) : Nat := (dnsOf es).count p

/-- The attributes of the first record defining `p`. -/
def attrOfDn : List JsonVal → JsonVal → Option JsonVal
  | [], _ => none
  | e :: rest, p =>
    if e.lookupField "dn" = some p then e.lookupField "attributes" else attrOfDn rest p

/-- Every record carries `dn` and `attributes` (guaranteed by
`_load_json_entries` before any merge). -/
def entriesWellFormed (es : List JsonVal) : Prop :=
  ∀ e ∈ es, (e.lookupField "dn").isSome = true ∧ (e.lookupField "attributes").isSome = true

/-- The number of records whose path was already present when merged:
walk the record list with the set of already-seen paths (the target's
keys extended by each newly inserted path) and count the clashes.
This bookkeeping is policy-independent. -/
def conflictCount (seen : List JsonVal) : List JsonVal → Nat
  | [] => 0
  | e :: rest =>
    match e.lookupField "dn" with
    | some d =>
      if d ∈ seen then 1 + conflictCount seen rest
      else conflictCount (seen ++ [d]) rest
    | none => 0

/-- `dict` lookup on a cons cell. -/
theorem lookup_cons_eq (d k v : JsonVal) (xs : MergeTarget) :
    List.lookup d ((k, v) :: xs) = if d = k then some v else List.lookup d xs := by
  by_cases h : d = k
  · subst h; simp [List.lookup]
  · simp [List.lookup, beq_eq_false_iff_ne.mpr h, h]

/-- A dict lookup succeeds exactly on the key list. -/
theorem lookup_isSome_iff_mem (t : MergeTarget) (d : JsonVal) :
    (t.lookup d).isSome = true ↔ d ∈ t.map (fun q => q.1) := by
  induction t with
  | nil => simp [List.lookup]
  | cons x xs ih =>
    rcases x with ⟨k, v⟩
    rw [lookup_cons_eq]
    by_cases h : d = k
    · subst h; simp
    · simp [h, ih]

/-- Lookup through an append when the front hits. -/
theorem lookup_append_of_isSome (t1 t2 : MergeTarget) (d v : JsonVal)
    (h : t1.lookup d = some v) : (t1 ++ t2).lookup d = some v := by
  induction t1 with
  | nil => simp [List.lookup] at h
  | cons x xs ih =>
    rcases x with ⟨k, w⟩
    rw [lookup_cons_eq] at h
    rw [List.cons_append, lookup_cons_eq]
    by_cases hk : d = k
    · rwa [if_pos hk] at h ⊢
    · rw [if_neg hk] at h ⊢
      exact ih h

/-- Lookup through an append when the front misses. -/
theorem lookup_append_of_none (t1 t2 : MergeTarget) (d : JsonVal)
    (h : t1.lookup d = none) : (t1 ++ t2).lookup d = t2.lookup d := by
  induction t1 with
  | nil => simp
  | cons x xs ih =>
    rcases x with ⟨k, w⟩
    rw [lookup_cons_eq] at h
    rw [List.cons_append, lookup_cons_eq]
    by_cases hk : d = k
    · rw [if_pos hk] at h; exact absurd h (Option.some_ne_none w)
    · rw [if_neg hk] at h ⊢
      exact ih h

/-- Lookup in a singleton. -/
theorem lookup_singleton (d k v : JsonVal) :
    ([(k, v)] : MergeTarget).lookup d = if d = k then some v else none := by
  rw [lookup_cons_eq]; rfl

/-- Appending a differently keyed pair does not change a lookup. -/
theorem lookup_append_singleton_other (t : MergeTarget) (d k v : JsonVal)
    (h : d ≠ k) : (t ++ [(k, v)]).lookup d = t.lookup d := by
  cases hl : t.lookup d with
  | some w => exact lookup_append_of_isSome t _ d w hl
  | none => rw [lookup_append_of_none t _ d hl, lookup_singleton, if_neg h]

/-- Rebinding map of `updateAssoc` on a cons cell. -/
theorem updateAssoc_map_cons (k v k1 v1 : JsonVal) (xs : MergeTarget) :
    (((k1, v1) :: xs).map (fun p => if p.1 = k then (k, v) else p)) =
      (if k1 = k then (k, v) else (k1, v1)) :: xs.map (fun p => if p.1 = k then (k, v) else p) := by
  rfl

/-- Overwriting an existing key rebinds it. -/
theorem updateAssoc_lookup_self (t : MergeTarget) (k v : JsonVal)
    (h : (t.lookup k).isSome = true) : (updateAssoc t k v).lookup k = some v := by
  unfold updateAssoc
  rw [if_pos h]
  rw [lookup_isSome_iff_mem] at h
  induction t with
  | nil => simp at h
  | cons x xs ih =>
    rcases x with ⟨k1, v1⟩
    rw [updateAssoc_map_cons]
    by_cases hk : k1 = k
    · rw [if_pos hk, lookup_cons_eq, if_pos rfl]
    · rw [if_neg hk, lookup_cons_eq, if_neg (fun he => hk he.symm)]
      apply ih
      simp at h
      rcases h with h | h
      · exact absurd h.symm hk
      · simpa using h

/-- Overwriting a key leaves other lookups unchanged. -/
theorem updateAssoc_lookup_other (t : MergeTarget) (d k v : JsonVal)
    (h : d ≠ k) : (updateAssoc t k v).lookup d = t.lookup d := by
  unfold updateAssoc
  split
  · next hsome =>
    clear hsome
    induction t with
    | nil => simp
    | cons x xs ih =>
      rcases x with ⟨k1, v1⟩
      rw [updateAssoc_map_cons]
      by_cases hk : k1 = k
      · rw [if_pos hk, lookup_cons_eq, lookup_cons_eq, if_neg h, if_neg (hk ▸ h)]
        exact ih
      · rw [if_neg hk, lookup_cons_eq, lookup_cons_eq]
        by_cases hd : d = k1
        · rw [if_pos hd, if_pos hd]
        · rw [if_neg hd, if_neg hd]
          exact ih
  · exact lookup_append_singleton_other t d k v h

/-- Overwriting an existing key keeps the key list. -/
theorem updateAssoc_keys (t : MergeTarget) (k v : JsonVal)
    (h : (t.lookup k).isSome = true) :
    (updateAssoc t k v).map (fun q => q.1) = t.map (fun q => q.1) := by
  unfold updateAssoc
  rw [if_pos h]
  clear h
  induction t with
  | nil => rfl
  | cons x xs ih =>
    rcases x with ⟨k1, v1⟩
    rw [updateAssoc_map_cons]
    by_cases hk : k1 = k
    · rw [if_pos hk, List.map_cons, List.map_cons, ih]
      simp [hk]
    · rw [if_neg hk, List.map_cons, List.map_cons, ih]

/-- One step of `_merge_entries` on a well-formed head record. -/
theorem mergeEntries_cons (strategy src : String) (t : MergeTarget) (n : Nat)
    (e : JsonVal) (rest : List JsonVal) (d a : JsonVal)
    (hd : e.lookupField "dn" = some d) (ha : e.lookupField "attributes" = some a) :
    mergeEntries strategy src t n (e :: rest) =
      if (t.lookup d).isSome then
        if strategy = "first_wins" then mergeEntries strategy src t (n + 1) rest
        else if strategy = "last_wins" then
          mergeEntries strategy src (updateAssoc t d a) (n + 1) rest
        else if strategy = "error" then .error (.conflict d src)
        else .error (.unknownStrategy strategy)
      else mergeEntries strategy src (t ++ [(d, a)]) n rest := by
  rw [mergeEntries, hd, ha]

/-- One step of `_merge_entries` on a record missing `dn` or
`attributes` (the Python `KeyError`). -/
theorem mergeEntries_cons_missing (strategy src : String) (t : MergeTarget) (n : Nat)
    (e : JsonVal) (rest : List JsonVal)
    (h : e.lookupField "dn" = none ∨ e.lookupField "attributes" = none) :
    mergeEntries strategy src t n (e :: rest) = .error .keyError := by
  rcases h with h | h
  · rw [mergeEntries, h]
  · rw [mergeEntries, h]
    cases e.lookupField "dn" <;> rfl

/-- `dnsOf` on a cons cell with a present `dn`. -/
theorem dnsOf_cons (e : JsonVal) (rest : List JsonVal) (d : JsonVal)
    (hd : e.lookupField "dn" = some d) :
    dnsOf (e :: rest) = d :: dnsOf rest := by
  simp [dnsOf, hd]

/-- `attrOfDn` on a cons cell. -/
theorem attrOfDn_cons (e : JsonVal) (rest : List JsonVal) (p : JsonVal) :
    attrOfDn (e :: rest) p =
      if e.lookupField "dn" = some p then e.lookupField "attributes"
      else attrOfDn rest p := rfl

/-- Well-formedness restricts to the tail. -/
theorem entriesWellFormed_tail {e : JsonVal} {rest : List JsonVal}
    (h : entriesWellFormed (e :: rest)) : entriesWellFormed rest :=
  fun x hx => h x (List.mem_cons_of_mem _ hx)

/-- `first_wins`/`last_wins` merges of well-formed records never
raise. -/
theorem mergeEntries_total_of_fw_lw (strategy src : String)
    (hs : strategy = "first_wins" ∨ strategy = "last_wins") (es : List JsonVal) :
    ∀ (t : MergeTarget) (n : Nat), entriesWellFormed es →
      ∃ t' c, mergeEntries strategy src t n es = .ok (t', c) := by
  induction es with
  | nil => intro t n _; exact ⟨t, n, rfl⟩
  | cons e rest ih =>
    intro t n hwf
    obtain ⟨hdn, hattr⟩ := hwf e (List.mem_cons_self e rest)
    obtain ⟨d, hd⟩ := Option.isSome_iff_exists.mp hdn
    obtain ⟨a, ha⟩ := Option.isSome_iff_exists.mp hattr
    have hwf' := entriesWellFormed_tail hwf
    rw [mergeEntries_cons strategy src t n e rest d a hd ha]
    by_cases hmem : (t.lookup d).isSome = true
    · rw [if_pos hmem]
      rcases hs with rfl | rfl
      · rw [if_pos rfl]
        exact ih t (n + 1) hwf'
      · rw [if_neg (by decide : ¬("last_wins" = "first_wins")), if_pos rfl]
        exact ih (updateAssoc t d a) (n + 1) hwf'
    · rw [if_neg hmem]
      exact ih (t ++ [(d, a)]) n hwf'

/-- `first_wins` never rebinds an existing path. -/
theorem mergeEntries_fw_preserves (src : String) (p v : JsonVal) (es : List JsonVal) :
    ∀ (t : MergeTarget) (n : Nat) (t' : MergeTarget) (c : Nat),
      t.lookup p = some v →
      mergeEntries "first_wins" src t n es = .ok (t', c) →
      t'.lookup p = some v := by
  induction es with
  | nil =>
    intro t n t' c hp hok
    rw [mergeEntries] at hok
    cases hok
    exact hp
  | cons e rest ih =>
    intro t n t' c hp hok
    cases hdn : e.lookupField "dn" with
    | none =>
      rw [mergeEntries_cons_missing _ _ _ _ _ _ (Or.inl hdn)] at hok
      exact absurd hok (by simp)
    | some d =>
      cases hattr : e.lookupField "attributes" with
      | none =>
        rw [mergeEntries_cons_missing _ _ _ _ _ _ (Or.inr hattr)] at hok
        exact absurd hok (by simp)
      | some a =>
        rw [mergeEntries_cons _ _ _ _ _ _ d a hdn hattr] at hok
        by_cases hmem : (t.lookup d).isSome = true
        · rw [if_pos hmem, if_pos rfl] at hok
          exact ih t (n + 1) t' c hp hok
        · rw [if_neg hmem] at hok
          exact ih (t ++ [(d, a)]) n t' c
            (lookup_append_of_isSome t _ p v hp) hok

/-- Under `first_wins`, an absent path gets the attributes of its
first defining record. -/
theorem mergeEntries_fw_inserts (src : String) (p a : JsonVal) (es : List JsonVal) :
    ∀ (t : MergeTarget) (n : Nat) (t' : MergeTarget) (c : Nat),
      t.lookup p = none →
      attrOfDn es p = some a →
      mergeEntries "first_wins" src t n es = .ok (t', c) →
      t'.lookup p = some a := by
  induction es with
  | nil =>
    intro t n t' c _ hattr _
    simp [attrOfDn] at hattr
  | cons e rest ih =>
    intro t n t' c hp hattr hok
    cases hdn : e.lookupField "dn" with
    | none =>
      rw [mergeEntries_cons_missing _ _ _ _ _ _ (Or.inl hdn)] at hok
      exact absurd hok (by simp)
    | some d =>
      cases hattre : e.lookupField "attributes" with
      | none =>
        rw [mergeEntries_cons_missing _ _ _ _ _ _ (Or.inr hattre)] at hok
        exact absurd hok (by simp)
      | some a0 =>
        rw [mergeEntries_cons _ _ _ _ _ _ d a0 hdn hattre] at hok
        rw [attrOfDn_cons, hdn] at hattr
        by_cases hdp : d = p
        · subst hdp
          rw [if_pos rfl, hattre] at hattr
          have ha0 : a0 = a := by injection hattr
          subst ha0
          rw [if_neg (by rw [hp]; simp)] at hok
          have hbound : (t ++ [(d, a0)]).lookup d = some a0 :=
            (lookup_append_of_none t _ d hp).trans (by rw [lookup_singleton, if_pos rfl])
          exact mergeEntries_fw_preserves src d a0 rest _ n t' c hbound hok
        · rw [if_neg (fun he => hdp (Option.some.inj he))] at hattr
          by_cases hmem : (t.lookup d).isSome = true
          · rw [if_pos hmem, if_pos rfl] at hok
            exact ih t (n + 1) t' c hp hattr hok
          · rw [if_neg hmem] at hok
            have hp2 : (t ++ [(d, a0)]).lookup p = none := by
              rw [lookup_append_singleton_other t p d a0 (fun he => hdp he.symm)]
              exact hp
            exact ih (t ++ [(d, a0)]) n t' c hp2 hattr hok

/-- A `last_wins` merge of records that never define `p` does not
change `p`'s binding. -/
theorem mergeEntries_lw_no_occurrence (src : String) (p : JsonVal) (es : List JsonVal) :
    ∀ (t : MergeTarget) (n : Nat) (t' : MergeTarget) (c : Nat),
      countDn es p = 0 →
      mergeEntries "last_wins" src t n es = .ok (t', c) →
      t'.lookup p = t.lookup p := by
  induction es with
  | nil =>
    intro t n t' c _ hok
    rw [mergeEntries] at hok
    cases hok
    rfl
  | cons e rest ih =>
    intro t n t' c hcount hok
    cases hdn : e.lookupField "dn" with
    | none =>
      rw [mergeEntries_cons_missing _ _ _ _ _ _ (Or.inl hdn)] at hok
      exact absurd hok (by simp)
    | some d =>
      cases hattr : e.lookupField "attributes" with
      | none =>
        rw [mergeEntries_cons_missing _ _ _ _ _ _ (Or.inr hattr)] at hok
        exact absurd hok (by simp)
      | some a =>
        have hdns := dnsOf_cons e rest d hdn
        have hdp : d ≠ p := by
          intro he
          subst he
          rw [countDn, hdns] at hcount
          simp [List.count_cons] at hcount
        have hcount' : countDn rest p = 0 := by
          rw [countDn, hdns] at hcount
          rw [countDn]
          simp [List.count_cons] at hcount
          omega
        rw [mergeEntries_cons _ _ _ _ _ _ d a hdn hattr] at hok
        by_cases hmem : (t.lookup d).isSome = true
        · rw [if_pos hmem, if_neg (by decide : ¬("last_wins" = "first_wins")),
              if_pos rfl] at hok
          rw [ih (updateAssoc t d a) (n + 1) t' c hcount' hok]
          exact updateAssoc_lookup_other t p d a (fun he => hdp he.symm)
        · rw [if_neg hmem] at hok
          rw [ih (t ++ [(d, a)]) n t' c hcount' hok]
          exact lookup_append_singleton_other t p d a (fun he => hdp he.symm)

/-- Under `last_wins`, a path defined exactly once ends bound to that
record's attributes, whatever the target held before. -/
theorem mergeEntries_lw_single (src : String) (p a : JsonVal) (es : List JsonVal) :
    ∀ (t : MergeTarget) (n : Nat) (t' : MergeTarget) (c : Nat),
      countDn es p = 1 →
      attrOfDn es p = some a →
      mergeEntries "last_wins" src t n es = .ok (t', c) →
      t'.lookup p = some a := by
  induction es with
  | nil =>
    intro t n t' c hcount _ _
    simp [countDn, dnsOf] at hcount
  | cons e rest ih =>
    intro t n t' c hcount hattr hok
    cases hdn : e.lookupField "dn" with
    | none =>
      rw [mergeEntries_cons_missing _ _ _ _ _ _ (Or.inl hdn)] at hok
      exact absurd hok (by simp)
    | some d =>
      cases hattre : e.lookupField "attributes" with
      | none =>
        rw [mergeEntries_cons_missing _ _ _ _ _ _ (Or.inr hattre)] at hok
        exact absurd hok (by simp)
      | some a0 =>
        have hdns := dnsOf_cons e rest d hdn
        rw [mergeEntries_cons _ _ _ _ _ _ d a0 hdn hattre] at hok
        rw [attrOfDn_cons, hdn] at hattr
        by_cases hdp : d = p
        · subst hdp
          rw [if_pos rfl, hattre] at hattr
          have ha0 : a0 = a := by injection hattr
          subst ha0
          have hcount' : countDn rest d = 0 := by
            rw [countDn, hdns] at hcount
            rw [countDn]
            simp [List.count_cons] at hcount
            omega
          by_cases hmem : (t.lookup d).isSome = true
          · rw [if_pos hmem, if_neg (by decide : ¬("last_wins" = "first_wins")),
                if_pos rfl] at hok
            rw [mergeEntries_lw_no_occurrence src d rest _ _ t' c hcount' hok]
            exact updateAssoc_lookup_self t d a0 hmem
          · rw [if_neg hmem] at hok
            rw [mergeEntries_lw_no_occurrence src d rest _ _ t' c hcount' hok]
            rw [lookup_append_of_none t _ d (Option.not_isSome_iff_eq_none.mp (by simp [hmem])),
                lookup_singleton, if_pos rfl]
        · rw [if_neg (fun he => hdp (Option.some.inj he))] at hattr
          have hcount' : countDn rest p = 1 := by
            rw [countDn, hdns] at hcount
            rw [countDn]
            simpa [List.count_cons, hdp] using hcount
          by_cases hmem : (t.lookup d).isSome = true
          · rw [if_pos hmem, if_neg (by decide : ¬("last_wins" = "first_wins")),
                if_pos rfl] at hok
            exact ih (updateAssoc t d a0) (n + 1) t' c hcount' hattr hok
          · rw [if_neg hmem] at hok
            exact ih (t ++ [(d, a0)]) n t' c hcount' hattr hok

/-- An `error`-policy merge of conflict-free records succeeds with an
unchanged conflict count; afterwards a path is bound exactly when it
was bound before or is defined by the records. -/
theorem mergeEntries_error_no_conflict (src : String) (es : List JsonVal) :
    ∀ (t : MergeTarget) (n : Nat),
      entriesWellFormed es → (dnsOf es).Nodup →
      (∀ d ∈ dnsOf es, t.lookup d = none) →
      ∃ t', mergeEntries "error" src t n es = .ok (t', n) ∧
        ∀ k, ((t'.lookup k).isSome = true ↔
          (t.lookup k).isSome = true ∨ k ∈ dnsOf es) := by
  induction es with
  | nil =>
    intro t n _ _ _
    refine ⟨t, rfl, fun k => ?_⟩
    simp [dnsOf]
  | cons e rest ih =>
    intro t n hwf hnd hnone
    obtain ⟨hdn, hattr⟩ := hwf e (List.mem_cons_self e rest)
    obtain ⟨d, hd⟩ := Option.isSome_iff_exists.mp hdn
    obtain ⟨a, ha⟩ := Option.isSome_iff_exists.mp hattr
    have hdns := dnsOf_cons e rest d hd
    have hdmem : d ∈ dnsOf (e :: rest) := by rw [hdns]; exact List.mem_cons_self d _
    have htd : t.lookup d = none := hnone d hdmem
    have hnd' : (dnsOf rest).Nodup := by
      rw [hdns] at hnd
      exact hnd.of_cons
    have hdnotrest : d ∉ dnsOf rest := by
      rw [hdns] at hnd
      exact (List.nodup_cons.mp hnd).1
    have hnone' : ∀ d' ∈ dnsOf rest, (t ++ [(d, a)]).lookup d' = none := by
      intro d' hd'
      have hne : d' ≠ d := fun he => hdnotrest (he ▸ hd')
      rw [lookup_append_singleton_other t d' d a hne]
      exact hnone d' (by rw [hdns]; exact List.mem_cons_of_mem d hd')
    obtain ⟨t', hok, hiff⟩ := ih (t ++ [(d, a)]) n (entriesWellFormed_tail hwf) hnd' hnone'
    refine ⟨t', ?_, fun k => ?_⟩
    · rw [mergeEntries_cons _ _ _ _ _ _ d a hd ha, if_neg (by simp [htd])]
      exact hok
    · rw [hiff k, hdns]
      by_cases hkd : k = d
      · subst hkd
        have : ((t ++ [(k, a)]).lookup k).isSome = true := by
          rw [lookup_append_of_none t _ k htd, lookup_singleton, if_pos rfl]
          rfl
        simp [this]
      · rw [lookup_append_singleton_other t k d a hkd]
        simp [List.mem_cons, hkd]

/-- An `error`-policy merge raises `MergeConflictError` naming the
path and the offending source when the records define an
already-bound path `p` (and no other bound path). -/
theorem mergeEntries_error_conflict (src : String) (p : JsonVal) (es : List JsonVal) :
    ∀ (t : MergeTarget) (n : Nat),
      entriesWellFormed es → (dnsOf es).Nodup →
      p ∈ dnsOf es → (t.lookup p).isSome = true →
      (∀ d ∈ dnsOf es, d ≠ p → t.lookup d = none) →
      mergeEntries "error" src t n es = .error (.conflict p src) := by
  induction es with
  | nil =>
    intro t n _ _ hp _ _
    simp [dnsOf] at hp
  | cons e rest ih =>
    intro t n hwf hnd hp htp hothers
    obtain ⟨hdn, hattr⟩ := hwf e (List.mem_cons_self e rest)
    obtain ⟨d, hd⟩ := Option.isSome_iff_exists.mp hdn
    obtain ⟨a, ha⟩ := Option.isSome_iff_exists.mp hattr
    have hdns := dnsOf_cons e rest d hd
    rw [mergeEntries_cons _ _ _ _ _ _ d a hd ha]
    by_cases hdp : d = p
    · subst hdp
      rw [if_pos htp, if_neg (by decide : ¬("error" = "first_wins")),
          if_neg (by decide : ¬("error" = "last_wins")), if_pos rfl]
    · have hdmem : d ∈ dnsOf (e :: rest) := by rw [hdns]; exact List.mem_cons_self d _
      have htd : t.lookup d = none := hothers d hdmem hdp
      rw [if_neg (by simp [htd])]
      have hp' : p ∈ dnsOf rest := by
        rw [hdns] at hp
        rcases List.mem_cons.mp hp with he | he
        · exact absurd he.symm hdp
        · exact he
      have hdnotrest : d ∉ dnsOf rest := by
        rw [hdns] at hnd
        exact (List.nodup_cons.mp hnd).1
      refine ih (t ++ [(d, a)]) n (entriesWellFormed_tail hwf)
        (by rw [hdns] at hnd; exact hnd.of_cons) hp' ?_ ?_
      · have : (t ++ [(d, a)]).lookup p = t.lookup p :=
          lookup_append_singleton_other t p d a (fun he => hdp he.symm)
        rw [this]
        exact htp
      · intro d' hd' hd'p
        have hne : d' ≠ d := fun he => hdnotrest (he ▸ hd')
        rw [lookup_append_singleton_other t d' d a hne]
        exact hothers d' (by rw [hdns]; exact List.mem_cons_of_mem d hd') hd'p

/-- Whenever `_merge_entries` returns, its conflict counter equals the
incoming counter plus the number of records whose path was already
present when merged (for every strategy). -/
theorem mergeEntries_conflict_count (strategy src : String) (es : List JsonVal) :
    ∀ (t : MergeTarget) (n : Nat) (t' : MergeTarget) (c : Nat),
      mergeEntries strategy src t n es = .ok (t', c) →
      c = n + conflictCount (t.map (fun q => q.1)) es := by
  induction es with
  | nil =>
    intro t n t' c hok
    rw [mergeEntries] at hok
    cases hok
    simp [conflictCount]
  | cons e rest ih =>
    intro t n t' c hok
    cases hdn : e.lookupField "dn" with
    | none =>
      rw [mergeEntries_cons_missing _ _ _ _ _ _ (Or.inl hdn)] at hok
      exact absurd hok (by simp)
    | some d =>
      cases hattr : e.lookupField "attributes" with
      | none =>
        rw [mergeEntries_cons_missing _ _ _ _ _ _ (Or.inr hattr)] at hok
        exact absurd hok (by simp)
      | some a =>
        rw [mergeEntries_cons _ _ _ _ _ _ d a hdn hattr] at hok
        have hcc : conflictCount (t.map (fun q => q.1)) (e :: rest) =
            if d ∈ t.map (fun q => q.1) then
              1 + conflictCount (t.map (fun q => q.1)) rest
            else conflictCount (t.map (fun q => q.1) ++ [d]) rest := by
          rw [conflictCount, hdn]
        by_cases hmem : (t.lookup d).isSome = true
        · have hdmem : d ∈ t.map (fun q => q.1) := (lookup_isSome_iff_mem t d).mp hmem
          rw [hcc, if_pos hdmem]
          rw [if_pos hmem] at hok
          by_cases h1 : strategy = "first_wins"
          · rw [if_pos h1] at hok
            have := ih t (n + 1) t' c hok
            omega
          · rw [if_neg h1] at hok
            by_cases h2 : strategy = "last_wins"
            · rw [if_pos h2] at hok
              have := ih (updateAssoc t d a) (n + 1) t' c hok
              rw [updateAssoc_keys t d a hmem] at this
              omega
            · rw [if_neg h2] at hok
              by_cases h3 : strategy = "error"
              · rw [if_pos h3] at hok
                exact absurd hok (by simp)
              · rw [if_neg h3] at hok
                exact absurd hok (by simp)
        · have hdmem : d ∉ t.map (fun q => q.1) := by
            intro hmm
            exact hmem ((lookup_isSome_iff_mem t d).mpr hmm)
          rw [hcc, if_neg hdmem]
          rw [if_neg hmem] at hok
          have := ih (t ++ [(d, a)]) n t' c hok
          rw [List.map_append] at this
          exact this

/-- C2: given two source files that both define path `p` with
different attributes (each file well-formed, defining each of its
paths once, sharing only `p`), merging under `first_wins` leaves `p`
bound to the first file's attributes, under `last_wins` to the second
file's, and under `error` the merge raises a conflict error naming
`p` and the offending (second) source; moreover, whenever
`_merge_entries` returns, its conflict count is the number of records
whose path was already present when merged. -/
theorem spec_C2_merge_policy_determinism
    (e1 e2 : List JsonVal) (p a1 a2 : JsonVal) (src1 src2 : String)
    (hw1 : entriesWellFormed e1) (hw2 : entriesWellFormed e2)
    (hn1 : (dnsOf e1).Nodup) (hn2 : (dnsOf e2).Nodup)
    (hp1 : p ∈ dnsOf e1) (ha1 : attrOfDn e1 p = some a1)
    (hp2 : p ∈ dnsOf e2) (ha2 : attrOfDn e2 p = some a2)
    (hshared : ∀ d ∈ dnsOf e1, d ∈ dnsOf e2 → d = p)
    (_hne : a1 ≠ a2) :
    (∃ t1 c1 t2 c2,
      mergeEntries "first_wins" src1 [] 0 e1 = .ok (t1, c1) ∧
      mergeEntries "first_wins" src2 t1 0 e2 = .ok (t2, c2) ∧
      t2.lookup p = some a1) ∧
    (∃ t1 c1 t2 c2,
      mergeEntries "last_wins" src1 [] 0 e1 = .ok (t1, c1) ∧
      mergeEntries "last_wins" src2 t1 0 e2 = .ok (t2, c2) ∧
      t2.lookup p = some a2) ∧
    (∃ t1,
      mergeEntries "error" src1 [] 0 e1 = .ok (t1, 0) ∧
      mergeEntries "error" src2 t1 0 e2 = .error (.conflict p src2)) ∧
    (∀ (strategy src : String) (es : List JsonVal) (t : MergeTarget) (n : Nat)
        (t' : MergeTarget) (c : Nat),
      mergeEntries strategy src t n es = .ok (t', c) →
      c = n + conflictCount (t.map (fun q => q.1)) es) := by
  refine ⟨?_, ?_, ?_,
    fun strategy src es t n t' c h => mergeEntries_conflict_count strategy src es t n t' c h⟩
  · obtain ⟨t1, c1, h1⟩ :=
      mergeEntries_total_of_fw_lw "first_wins" src1 (Or.inl rfl) e1 [] 0 hw1
    obtain ⟨t2, c2, h2⟩ :=
      mergeEntries_total_of_fw_lw "first_wins" src2 (Or.inl rfl) e2 t1 0 hw2
    have hpt1 : t1.lookup p = some a1 :=
      mergeEntries_fw_inserts src1 p a1 e1 [] 0 t1 c1 rfl ha1 h1
    exact ⟨t1, c1, t2, c2, h1, h2,
      mergeEntries_fw_preserves src2 p a1 e2 t1 0 t2 c2 hpt1 h2⟩
  · obtain ⟨t1, c1, h1⟩ :=
      mergeEntries_total_of_fw_lw "last_wins" src1 (Or.inr rfl) e1 [] 0 hw1
    obtain ⟨t2, c2, h2⟩ :=
      mergeEntries_total_of_fw_lw "last_wins" src2 (Or.inr rfl) e2 t1 0 hw2
    have hc2 : countDn e2 p = 1 := List.count_eq_one_of_mem hn2 hp2
    exact ⟨t1, c1, t2, c2, h1, h2,
      mergeEntries_lw_single src2 p a2 e2 t1 0 t2 c2 hc2 ha2 h2⟩
  · obtain ⟨t1, h1, hiff⟩ :=
      mergeEntries_error_no_conflict src1 e1 [] 0 hw1 hn1 (fun d _ => rfl)
    have hpt1 : (t1.lookup p).isSome = true := (hiff p).mpr (Or.inr hp1)
    have hothers : ∀ d ∈ dnsOf e2, d ≠ p → t1.lookup d = none := by
      intro d hd hdp
      by_cases hs : (t1.lookup d).isSome = true
      · rcases (hiff d).mp hs with h | h
        · simp [List.lookup] at h
        · exact absurd (hshared d h hd) hdp
      · exact Option.not_isSome_iff_eq_none.mp (by simpa using hs)
    exact ⟨t1, h1, mergeEntries_error_conflict src2 p e2 t1 0 hw2 hn2 hp2 hpt1 hothers⟩

/-- C2 witness: two single-record files both defining
`dc=example,dc=com` with different `dc` values; under `first_wins` the
merged target keeps the first file's attributes. -/
theorem spec_C2_witness :
    entriesWellFormed [sampleRecord] ∧
    attrOfDn [sampleRecord] (.str "dc=example,dc=com") =
      some (jobj [("dc", jarr [.str "example"])]) ∧
    (∃ t1 c1 t2 c2,
      mergeEntries "first_wins" "a.json" [] 0 [sampleRecord] = .ok (t1, c1) ∧
      mergeEntries "first_wins" "b.json" t1 0 [sampleRecordB] = .ok (t2, c2) ∧
      t2.lookup (.str "dc=example,dc=com") = some (jobj [("dc", jarr [.str "example"])])) := by
  refine ⟨by unfold entriesWellFormed; decide, by decide, ?_⟩
  exact (spec_C2_merge_policy_determinism [sampleRecord] [sampleRecordB]
      (.str "dc=example,dc=com")
      (jobj [("dc", jarr [.str "example"])]) (jobj [("dc", jarr [.str "other"])])
      "a.json" "b.json"
      (by unfold entriesWellFormed; decide) (by unfold entriesWellFormed; decide)
      (by decide) (by decide) (by decide) (by decide) (by decide) (by decide)
      (by decide) (by decide)).1

/-! ## C6: unknown merge strategy -/

/-- A merge in which no record's path is already present succeeds for
every strategy value, recognized or not — the strategy is only
inspected on a conflict. -/
theorem mergeEntries_no_conflict_ok (strategy src : String) (es : List JsonVal) :
    ∀ (t : MergeTarget) (n : Nat),
      entriesWellFormed es →
      conflictCount (t.map (fun q => q.1)) es = 0 →
      ∃ t', mergeEntries strategy src t n es = .ok (t', n) := by
  induction es with
  | nil => intro t n _ _; exact ⟨t, rfl⟩
  | cons e rest ih =>
    intro t n hwf hcc
    obtain ⟨hdn, hattr⟩ := hwf e (List.mem_cons_self e rest)
    obtain ⟨d, hd⟩ := Option.isSome_iff_exists.mp hdn
    obtain ⟨a, ha⟩ := Option.isSome_iff_exists.mp hattr
    have hcc2 : (if d ∈ t.map (fun q => q.1) then
        1 + conflictCount (t.map (fun q => q.1)) rest
      else conflictCount (t.map (fun q => q.1) ++ [d]) rest) = 0 := by
      rw [conflictCount, hd] at hcc
      exact hcc
    by_cases hdm : d ∈ t.map (fun q => q.1)
    · rw [if_pos hdm] at hcc2; omega
    · rw [if_neg hdm] at hcc2
      rw [mergeEntries_cons _ _ _ _ _ _ d a hd ha,
          if_neg (fun hs => hdm ((lookup_isSome_iff_mem t d).mp hs))]
      obtain ⟨t', h⟩ := ih (t ++ [(d, a)]) n (entriesWellFormed_tail hwf)
        (by rw [List.map_append]; exact hcc2)
      exact ⟨t', h⟩

/-- A conflict-free single-record source file for construction-time
experiments. -/
def c6File : SourceFile := ⟨"conf.json", .parsed (jarr [sampleRecord])⟩

/-- C6 counterexample: constructing the store with the unrecognized
merge policy `bogus` over a conflict-free source succeeds — no
configuration error is raised at construction time, contradicting the
claim. -/
theorem spec_C6_counterexample :
    (Storage.construct [c6File] "bogus" false id false 1000 100).2 = none := rfl

/-- C6 amended: an unrecognized merge-policy value is not validated at
construction — the store constructs successfully whenever the initial
load meets no duplicate path — and the `Unknown merge strategy`
`ValueError` is first raised inside `_merge_entries`, exactly when a
record's path is already present in the merge target. -/
theorem spec_C6_unknown_strategy_raises_at_merge_time
    (strategy : String)
    (h1 : strategy ≠ "first_wins") (h2 : strategy ≠ "last_wins")
    (h3 : strategy ≠ "error") :
    ((Storage.construct [c6File] strategy false id false 1000 100).2 = none) ∧
    (∀ (src : String) (es : List JsonVal) (t : MergeTarget) (n : Nat),
      entriesWellFormed es → conflictCount (t.map (fun q => q.1)) es = 0 →
      ∃ t', mergeEntries strategy src t n es = .ok (t', n)) ∧
    (∀ (src : String) (t : MergeTarget) (n : Nat) (e : JsonVal) (rest : List JsonVal)
        (d a : JsonVal),
      e.lookupField "dn" = some d → e.lookupField "attributes" = some a →
      (t.lookup d).isSome = true →
      mergeEntries strategy src t n (e :: rest) = .error (.unknownStrategy strategy)) := by
  refine ⟨rfl,
    fun src es t n hwf hcc => mergeEntries_no_conflict_ok strategy src es t n hwf hcc, ?_⟩
  intro src t n e rest d a hd ha hl
  rw [mergeEntries_cons _ _ _ _ _ _ d a hd ha, if_pos hl, if_neg h1, if_neg h2, if_neg h3]

/-- C6 witness: with the concrete bogus policy the store constructs,
and a merge of a duplicate path raises `Unknown merge strategy`. -/
theorem spec_C6_witness :
    ("bogus" ≠ "first_wins") ∧
    ((Storage.construct [c6File] "bogus" false id false 1000 100).2 = none ∧
      mergeEntries "bogus" "b.json" [(.str "dc=example,dc=com", jobj [])] 0 [sampleRecordB] =
        .error (.unknownStrategy "bogus")) := by
  refine ⟨by decide, ?_, ?_⟩
  · exact (spec_C6_unknown_strategy_raises_at_merge_time "bogus"
      (by decide) (by decide) (by decide)).1
  · exact (spec_C6_unknown_strategy_raises_at_merge_time "bogus"
      (by decide) (by decide) (by decide)).2.2 "b.json"
      [(.str "dc=example,dc=com", jobj [])] 0 sampleRecordB []
      (.str "dc=example,dc=com") (jobj [("dc", jarr [.str "other"])])
      rfl rfl rfl

/-! ## Code-point order lemmas (Python `sorted` on strings) -/

/-- `charListLt` is asymmetric. -/
theorem charListLt_asymm : ∀ (a b : List Char),
    charListLt a b = true → charListLt b a = false := by
  intro a
  induction a with
  | nil =>
    intro b hab
    cases b with
    | nil => simp [charListLt] at hab
    | cons y ys => rfl
  | cons x xs ih =>
    intro b hab
    cases b with
    | nil => simp [charListLt] at hab
    | cons y ys =>
      rw [charListLt] at hab ⊢
      by_cases hxy : x < y
      · rw [if_neg (lt_asymm hxy), if_pos hxy]
      · rw [if_neg hxy] at hab
        by_cases hyx : y < x
        · rw [if_pos hyx] at hab
          exact absurd hab (by simp)
        · rw [if_neg hyx] at hab
          rw [if_neg hyx, if_neg hxy]
          exact ih ys hab

/-- `charListLt` is transitive. -/
theorem charListLt_trans : ∀ (a b c : List Char),
    charListLt a b = true → charListLt b c = true → charListLt a c = true := by
  intro a
  induction a with
  | nil =>
    intro b c hab hbc
    cases b with
    | nil => simp [charListLt] at hab
    | cons y ys =>
      cases c with
      | nil => simp [charListLt] at hbc
      | cons z zs => rfl
  | cons x xs ih =>
    intro b c hab hbc
    cases b with
    | nil => simp [charListLt] at hab
    | cons y ys =>
      cases c with
      | nil => simp [charListLt] at hbc
      | cons z zs =>
        rw [charListLt] at hab hbc ⊢
        by_cases hxy : x < y
        · by_cases hyz : y < z
          · rw [if_pos (lt_trans hxy hyz)]
          · rw [if_neg hyz] at hbc
            by_cases hzy : z < y
            · rw [if_pos hzy] at hbc
              exact absurd hbc (by simp)
            · have heq : y = z := le_antisymm (le_of_not_lt hzy) (le_of_not_lt hyz)
              subst heq
              rw [if_pos hxy]
        · rw [if_neg hxy] at hab
          by_cases hyx : y < x
          · rw [if_pos hyx] at hab
            exact absurd hab (by simp)
          · rw [if_neg hyx] at hab
            have heq : x = y := le_antisymm (le_of_not_lt hyx) (le_of_not_lt hxy)
            subst heq
            by_cases hyz : x < z
            · rw [if_pos hyz]
            · rw [if_neg hyz] at hbc ⊢
              by_cases hzy : z < x
              · rw [if_pos hzy] at hbc
                exact absurd hbc (by simp)
              · rw [if_neg hzy] at hbc ⊢
                exact ih ys zs hab hbc

/-- Two lists neither of which precedes the other are equal. -/
theorem charListLt_connex : ∀ (a b : List Char),
    charListLt a b = false → charListLt b a = false → a = b := by
  intro a
  induction a with
  | nil =>
    intro b h1 h2
    cases b with
    | nil => rfl
    | cons y ys => simp [charListLt] at h1
  | cons x xs ih =>
    intro b h1 h2
    cases b with
    | nil => simp [charListLt] at h2
    | cons y ys =>
      rw [charListLt] at h1 h2
      by_cases hxy : x < y
      · rw [if_pos hxy] at h1
        exact absurd h1 (by simp)
      · rw [if_neg hxy] at h1
        by_cases hyx : y < x
        · rw [if_pos hyx] at h2
          exact absurd h2 (by simp)
        · rw [if_neg hyx] at h1
          rw [if_neg hyx, if_neg hxy] at h2
          have heq : x = y := le_antisymm (le_of_not_lt hyx) (le_of_not_lt hxy)
          rw [heq, ih ys h1 h2]

/-- `dnLeb` is transitive. -/
theorem dnLeb_trans (a b c : String) (hab : dnLeb a b = true) (hbc : dnLeb b c = true) :
    dnLeb a c = true := by
  unfold dnLeb at hab hbc ⊢
  rw [Bool.not_eq_true'] at hab hbc ⊢
  cases hca : charListLt c.data a.data with
  | false => rfl
  | true =>
    exfalso
    cases hbc2 : charListLt b.data c.data with
    | true =>
      have hba := charListLt_trans _ _ _ hbc2 hca
      exact absurd (hab ▸ hba) (by simp)
    | false =>
      have heq : b.data = c.data := charListLt_connex _ _ hbc2 hbc
      rw [← heq] at hca
      exact absurd (hab ▸ hca) (by simp)

/-- `dnLeb` is total. -/
theorem dnLeb_total (a b : String) : (dnLeb a b || dnLeb b a) = true := by
  unfold dnLeb
  cases h : charListLt b.data a.data with
  | false => simp
  | true =>
    have := charListLt_asymm _ _ h
    simp [this]

/-! ## Paginated-search lemmas -/

/-- String-keyed dict lookup succeeds exactly on the key list. -/
theorem lookup_str_isSome_iff_mem (t : List (String × Nat)) (d : String) :
    (t.lookup d).isSome = true ↔ d ∈ t.map (fun q => q.1) := by
  induction t with
  | nil => simp [List.lookup]
  | cons x xs ih =>
    rcases x with ⟨k, v⟩
    by_cases h : d = k
    · subst h; simp [List.lookup]
    · simp [List.lookup, beq_eq_false_iff_ne.mpr h, h, ih]

/-- A DN carried by some file's index yields a reference. -/
theorem lookupRefIn_isSome (dn : String) : ∀ (files : IndexedFiles),
    (∃ f ∈ files, dn ∈ f.2.map (fun q => q.1)) →
    (lookupRefIn dn files).isSome = true := by
  intro files
  induction files with
  | nil => simp
  | cons f rest ih =>
    intro h
    obtain ⟨g, hg, hd⟩ := h
    rcases f with ⟨name, idx⟩
    rw [lookupRefIn]
    cases hl : idx.lookup dn with
    | some i => rfl
    | none =>
      rcases List.mem_cons.mp hg with rfl | hg2
      · exact absurd ((lookup_str_isSome_iff_mem idx dn).mpr hd) (by simp [hl])
      · exact ih ⟨g, hg2, hd⟩

/-- Membership in the union of the per-file DN sets. -/
theorem mem_allIndexedDns (files : IndexedFiles) (dn : String) :
    dn ∈ allIndexedDns files ↔ ∃ f ∈ files, dn ∈ f.2.map (fun q => q.1) := by
  unfold allIndexedDns
  rw [List.mem_dedup, List.mem_flatten]
  constructor
  · rintro ⟨l, hl, hdn⟩
    obtain ⟨f, hf, rfl⟩ := List.mem_map.mp hl
    exact ⟨f, hf, hdn⟩
  · rintro ⟨f, hf, hdn⟩
    exact ⟨f.2.map (fun q => q.1), List.mem_map.mpr ⟨f, hf, rfl⟩, hdn⟩

/-- Every indexed DN resolves to a lazy reference under every
strategy. -/
theorem getLazyRefForDn_isSome (files : IndexedFiles) (strategy dn : String)
    (h : dn ∈ allIndexedDns files) :
    (getLazyRefForDn files strategy dn).isSome = true := by
  have h2 := (mem_allIndexedDns files dn).mp h
  unfold getLazyRefForDn
  split
  · obtain ⟨f, hf, hd⟩ := h2
    exact lookupRefIn_isSome dn files.reverse ⟨f, List.mem_reverse.mpr hf, hd⟩
  · exact lookupRefIn_isSome dn files h2

/-- Membership in the filtered, sorted DN enumeration. -/
theorem mem_iterGetAllDns (files : IndexedFiles) (baseDn dn : String) :
    dn ∈ iterGetAllDns files baseDn ↔
      dn ∈ allIndexedDns files ∧
        (baseDn = "" ∨ dn.endsWith baseDn = true ∨ dn = baseDn) := by
  unfold iterGetAllDns
  rw [(List.mergeSort_perm _ dnLeb).mem_iff]
  by_cases hb : baseDn = ""
  · simp [hb]
  · simp [hb, List.mem_filter, Bool.or_eq_true]

/-- The DN enumeration has no duplicates. -/
theorem iterGetAllDns_nodup (files : IndexedFiles) (baseDn : String) :
    (iterGetAllDns files baseDn).Nodup := by
  unfold iterGetAllDns
  rw [(List.mergeSort_perm _ dnLeb).nodup_iff]
  by_cases hb : baseDn = ""
  · simp [hb, allIndexedDns, List.nodup_dedup]
  · simp only [hb, if_neg (fun h => hb h)]
    exact (List.nodup_dedup _).filter _

/-- The DN enumeration is sorted by code points. -/
theorem iterGetAllDns_sorted (files : IndexedFiles) (baseDn : String) :
    List.Pairwise (fun a b => dnLeb a b = true) (iterGetAllDns files baseDn) :=
  List.sorted_mergeSort (fun a b c => dnLeb_trans a b c) dnLeb_total _

/-- Resolving every DN of a list carried by the index is the
identity on that list. -/
theorem filterMap_ref_eq_self (files : IndexedFiles) (strategy : String)
    (l : List String) (h : ∀ dn ∈ l, dn ∈ allIndexedDns files) :
    l.filterMap (fun dn => (getLazyRefForDn files strategy dn).map (fun _ => dn)) = l := by
  induction l with
  | nil => rfl
  | cons x xs ih =>
    rw [List.filterMap_cons]
    have hx : (getLazyRefForDn files strategy x).isSome = true :=
      getLazyRefForDn_isSome files strategy x (h x (List.mem_cons_self x xs))
    obtain ⟨r, hr⟩ := Option.isSome_iff_exists.mp hx
    rw [hr]
    simp only [Option.map_some']
    rw [ih (fun dn hdn => h dn (List.mem_cons_of_mem x hdn))]

/-- Taking up to the clipped page end equals taking a full page. -/
theorem drop_take_min (l : List String) (s n : Nat) :
    (l.drop s).take (min (s + n) l.length - s) = (l.drop s).take n := by
  rcases le_or_lt (s + n) l.length with h | h
  · rw [Nat.min_eq_left h, Nat.add_sub_cancel_left]
  · rw [Nat.min_eq_right (Nat.le_of_lt h)]
    rw [List.take_of_length_le (by rw [List.length_drop]),
        List.take_of_length_le (by rw [List.length_drop]; omega)]

/-- C8 counterexample: with lazy loading disabled, `search_paginated`
raises `ValueError` instead of drawing from the built tree — the
claimed "succeeds in both eager and lazy modes" fails in eager mode. -/
theorem spec_C8_counterexample :
    (Storage.initState [⟨"data.json", .parsed (jarr [sampleRecord])⟩]
        "last_wins" false id false 1000 100).searchPaginated "dc=example,dc=com" 10 0 =
      .error "Paginated search requires lazy loading to be enabled" := rfl

/-- C8 amended: in lazy mode `search_paginated` succeeds and
enumerates exactly the indexed paths under the base-DN suffix filter,
deduplicated, in ascending code-point order, serving the requested
page slice; with lazy loading disabled, `search_paginated` and
`create_search_iterator` raise `ValueError` rather than drawing from
the built tree. -/
theorem spec_C8_paginated_search (s : Storage) (baseDn : String) (pageSize pageNum : Nat) :
    (s.enableLazyLoading = false →
      s.searchPaginated baseDn pageSize pageNum =
        .error "Paginated search requires lazy loading to be enabled" ∧
      s.createSearchIterator baseDn pageSize =
        .error "Search iterator requires lazy loading to be enabled") ∧
    (s.enableLazyLoading = true →
      ∃ r, s.searchPaginated baseDn pageSize pageNum = .ok r ∧
        r.totalCount = (iterGetAllDns s.indexedFiles baseDn).length ∧
        r.pageSize = pageSize ∧
        r.entries =
          ((iterGetAllDns s.indexedFiles baseDn).drop (pageNum * pageSize)).take pageSize ∧
        List.Pairwise (fun a b => dnLeb a b = true) (iterGetAllDns s.indexedFiles baseDn) ∧
        (iterGetAllDns s.indexedFiles baseDn).Nodup ∧
        (∀ dn, dn ∈ iterGetAllDns s.indexedFiles baseDn ↔
          dn ∈ allIndexedDns s.indexedFiles ∧
            (baseDn = "" ∨ dn.endsWith baseDn = true ∨ dn = baseDn))) := by
  constructor
  · intro h
    constructor
    · simp [Storage.searchPaginated, h]
    · simp [Storage.createSearchIterator, h]
  · intro h
    refine ⟨iterGetPage s.indexedFiles s.mergeStrategy baseDn pageSize pageNum,
      by simp [Storage.searchPaginated, h], rfl, rfl, ?_,
      iterGetAllDns_sorted s.indexedFiles baseDn,
      iterGetAllDns_nodup s.indexedFiles baseDn,
      fun dn => mem_iterGetAllDns s.indexedFiles baseDn dn⟩
    show (((iterGetAllDns s.indexedFiles baseDn).drop (pageNum * pageSize)).take
        (min (pageNum * pageSize + pageSize) (iterGetAllDns s.indexedFiles baseDn).length
          - pageNum * pageSize)).filterMap (fun dn =>
          (getLazyRefForDn s.indexedFiles s.mergeStrategy dn).map (fun _ => dn)) =
      ((iterGetAllDns s.indexedFiles baseDn).drop (pageNum * pageSize)).take pageSize
    rw [filterMap_ref_eq_self s.indexedFiles s.mergeStrategy _ ?_]
    · exact drop_take_min _ _ _
    · intro dn hdn
      have hmem : dn ∈ iterGetAllDns s.indexedFiles baseDn :=
        List.drop_subset _ _ (List.take_subset _ _ hdn)
      exact ((mem_iterGetAllDns s.indexedFiles baseDn dn).mp hmem).1

/-- A lazy-mode storage with one indexed file for the C8 witness. -/
def c8LazyStorage : Storage :=
  { jsonFiles := [⟨"data.json", .parsed (jarr [sampleRecord])⟩]
    mergeStrategy := "last_wins"
    hashPlainPasswords := false
    hashFn := id
    enableLazyLoading := true
    lazyCacheMaxEntries := 1000
    lazyCacheMaxMemoryMb := 100
    rootRef := none
    indexedFiles := [("data.json", [("dc=example,dc=com", 0)])]
    lazyCache := some (mkCache 1000 100)
    loadStats := ⟨1, 1, 0, true⟩
    errorLog := [] }

/-- C8 witness: the eager branch raises and the lazy branch pages the
sorted enumeration. -/
theorem spec_C8_witness :
    c8LazyStorage.enableLazyLoading = true ∧
    ((Storage.initState [⟨"data.json", .parsed (jarr [sampleRecord])⟩]
        "last_wins" false id false 1000 100).enableLazyLoading = false ∧
     (∃ r, c8LazyStorage.searchPaginated "" 10 0 = .ok r ∧
        r.totalCount = (iterGetAllDns c8LazyStorage.indexedFiles "").length)) := by
  refine ⟨rfl, rfl, ?_⟩
  obtain ⟨r, h1, h2, _⟩ := (spec_C8_paginated_search c8LazyStorage "" 10 0).2 rfl
  exact ⟨r, h1, h2⟩

end LdapJson
